import Mathlib

/-!
Verification development for the dispatch scheduler of
`src/simulador/modelo.py` (`simular` and its inner `solve_lp`).

The Python code is shallowly embedded over `ℚ`:
* the aligned input dataframe becomes a `Series` of per-timestep columns;
* the configuration dictionary becomes a `Config` record;
* the external LP routine (`scipy.optimize.linprog`) is an opaque oracle
  `LPProblem → Option (List ℚ)`; `none` models `res.success = False`.
  `OracleSound` captures the contract of a bounded LP solver: any returned
  point satisfies the variable bounds and the inequality constraints;
* the mutable NumPy buffers become lists updated by `List.set`, and the three
  `while` loops of `simular` become fuel-indexed structural recursions
  (`extendLoop`, `simStep`/`simLoop`, plus the small scan helpers);
* Python `float` division raises `ZeroDivisionError` on a zero denominator;
  the two denominators of the code (`battery_mwh`, `eta_dis`) are guarded in
  `simularFull`, which returns `Except` like the call either returning the
  result dataframe or raising.

Ghost instrumentation (not present in the Python code, and never feeding back
into the computed columns): a `written` mask recording which output indices
were assigned, the list of accepted `Cycle`s, and a counter of `solve_lp`
invocations.
-/

namespace Autoconsumo

/-- Aligned input series: the `price`, consumption and `pv_MWh` columns of the
input dataframe, one rational per timestep. -/
structure Series where
  price : List ℚ
  load : List ℚ
  pv : List ℚ
deriving DecidableEq

/-- The configuration dictionary of `simular`, with every key the code reads
(`config[...]` / `config.get(...)`) made explicit. -/
structure Config where
  battery_mwh : ℚ
  battery_mw : ℚ
  eta_ch : ℚ
  eta_dis : ℚ
  soc_min : ℚ
  soc_max : ℚ
  soc_ini : ℚ
  soc_full_epsilon : ℚ
  excess_threshold_mwh : ℚ
  end_soc_target : ℚ
  end_soc_penalty : ℚ
  charge_early_bonus : ℚ
  charge_early_shape_linear : Bool
deriving DecidableEq

/-- `n_total = len(df)`. -/
def nTotal (sr : Series) : ℕ := sr.load.length

/-- `price[t]` (0 past the end of the column). -/
def priceAt (sr : Series) (t : ℕ) : ℚ := sr.price.getD t 0

/-- `load[t]`. -/
def loadAt (sr : Series) (t : ℕ) : ℚ := sr.load.getD t 0

/-- `pv[t]`. -/
def pvAt (sr : Series) (t : ℕ) : ℚ := sr.pv.getD t 0

/-- `pv_to_load = np.minimum(pv, load)`. -/
def pvToLoadAt (sr : Series) (t : ℕ) : ℚ := min (pvAt sr t) (loadAt sr t)

/-- `deficit = np.maximum(load - pv, 0.0)`. -/
def deficitAt (sr : Series) (t : ℕ) : ℚ := max (loadAt sr t - pvAt sr t) 0

/-- `excess_pv = np.maximum(pv - load, 0.0)`. -/
def excessAt (sr : Series) (t : ℕ) : ℚ := max (pvAt sr t - loadAt sr t) 0

/-- `has_excess = excess_pv > thr`. -/
def hasExcess (sr : Series) (cfg : Config) (t : ℕ) : Bool :=
  decide (cfg.excess_threshold_mwh < excessAt sr t)

/-- Entry `i` of `np.r_[False, has_excess[:-1]]`: `False` at 0, else the
previous entry of `has_excess`. -/
def shiftedHasExcess (sr : Series) (cfg : Config) : ℕ → Bool
  | 0 => false
  | j + 1 => hasExcess sr cfg j

/-- `cand = np.where(has_excess & ~np.r_[False, has_excess[:-1]])[0]`:
the indices of rising edges of surplus blocks, in increasing order. -/
def candidates (sr : Series) (cfg : Config) : List ℕ :=
  (List.range (nTotal sr)).filter
    (fun i => hasExcess sr cfg i && !shiftedHasExcess sr cfg i)

theorem deficitAt_nonneg (sr : Series) (t : ℕ) : 0 ≤ deficitAt sr t :=
  le_max_right _ _

theorem excessAt_nonneg (sr : Series) (t : ℕ) : 0 ≤ excessAt sr t :=
  le_max_right _ _

theorem candidates_sorted (sr : Series) (cfg : Config) :
    List.Pairwise (· < ·) (candidates sr cfg) :=
  List.Pairwise.sublist (List.filter_sublist _) (List.pairwise_lt_range _)

theorem mem_candidates {sr : Series} {cfg : Config} {i : ℕ} :
    i ∈ candidates sr cfg ↔
      i < nTotal sr ∧ hasExcess sr cfg i = true ∧ shiftedHasExcess sr cfg i = false := by
  simp only [candidates, List.mem_filter, List.mem_range, Bool.and_eq_true,
    Bool.not_eq_true']

theorem candidates_lt {sr : Series} {cfg : Config} {i : ℕ}
    (h : i ∈ candidates sr cfg) : i < nTotal sr :=
  (mem_candidates.mp h).1

/-- Every index stored in the candidate list is below `n_total`, stated for
`getD` access. -/
theorem candidates_getD_lt {sr : Series} {cfg : Config} {j : ℕ}
    (h : j < (candidates sr cfg).length) :
    (candidates sr cfg).getD j 0 < nTotal sr := by
  have hm : (candidates sr cfg).getD j 0 ∈ candidates sr cfg := by
    rw [List.getD_eq_getElem _ _ h]
    exact List.getElem_mem h
  exact candidates_lt hm

/-- Strict monotonicity of the candidate list under `getD` indexing. -/
theorem candidates_getD_lt_getD {sr : Series} {cfg : Config} {a b : ℕ}
    (hab : a < b) (hb : b < (candidates sr cfg).length) :
    (candidates sr cfg).getD a 0 < (candidates sr cfg).getD b 0 := by
  have ha : a < (candidates sr cfg).length := lt_trans hab hb
  rw [List.getD_eq_getElem _ _ ha, List.getD_eq_getElem _ _ hb]
  exact (List.pairwise_iff_get.mp (candidates_sorted sr cfg)) ⟨a, ha⟩ ⟨b, hb⟩ hab

/-- The data handed to `scipy.optimize.linprog` in `solve_lp`:
`c`, per-variable `bounds` (lower, optional upper), `A_ub`, `b_ub`.
`n` is the window length; the variable vector is
`[ch_0..ch_{n-1}, dis_0..dis_{n-1}, slack_end]`. -/
structure LPProblem where
  n : ℕ
  c : List ℚ
  bounds : List (ℚ × Option ℚ)
  A_ub : List (List ℚ)
  b_ub : List ℚ
deriving DecidableEq

/-- `ch_ub = np.minimum(excess_pv[t0:t1], pmax)` entrywise. -/
def chUb (sr : Series) (cfg : Config) (t0 i : ℕ) : ℚ :=
  min (excessAt sr (t0 + i)) cfg.battery_mw

/-- `dis_ub = np.minimum(deficit[t0:t1], pmax)` entrywise. -/
def disUb (sr : Series) (cfg : Config) (t0 i : ℕ) : ℚ :=
  min (deficitAt sr (t0 + i)) cfg.battery_mw

/-- The per-step weight vector `w`: `np.linspace(1.0, 0.0, n)` for the
`"linear"` shape (`1 - i/(n-1)`, and `[1]` for `n = 1`), else `np.ones(n)`. -/
def wAt (cfg : Config) (n i : ℕ) : ℚ :=
  if cfg.charge_early_shape_linear then
    if n ≤ 1 then 1 else 1 - (i : ℚ) / ((n : ℚ) - 1)
  else 1

/-- Row `k` of the cumulative-SOC matrix
`A_soc = [ (eta_ch/cap) L , (-1/(eta_dis*cap)) L , 0 ]` with `L` lower
triangular of ones. -/
def lpRowSoc (cfg : Config) (n k : ℕ) : List ℚ :=
  (List.range n).map (fun j => if j ≤ k then cfg.eta_ch / cfg.battery_mwh else 0)
    ++ (List.range n).map
      (fun j => if j ≤ k then -(1 / (cfg.eta_dis * cfg.battery_mwh)) else 0)
    ++ [0]

/-- `A_end`: the last row of `A_soc` with its final entry replaced by
`-1.0/cap` (the slack coefficient of the soft terminal constraint). -/
def lpEndRow (cfg : Config) (n : ℕ) : List ℚ :=
  (List.range n).map (fun j => if j ≤ n - 1 then cfg.eta_ch / cfg.battery_mwh else 0)
    ++ (List.range n).map
      (fun j => if j ≤ n - 1 then -(1 / (cfg.eta_dis * cfg.battery_mwh)) else 0)
    ++ [-(1 / cfg.battery_mwh)]

/-- The LP of the horizon `[t0, t1)` exactly as `solve_lp` assembles it. -/
def mkLP (sr : Series) (cfg : Config) (t0 t1 : ℕ) (soc0 : ℚ) : LPProblem :=
  let n := t1 - t0
  { n := n
    c := (List.range n).map (fun i => -cfg.charge_early_bonus * wAt cfg n i)
      ++ (List.range n).map (fun i => -priceAt sr (t0 + i))
      ++ [cfg.end_soc_penalty]
    bounds := (List.range n).map (fun i => ((0 : ℚ), some (chUb sr cfg t0 i)))
      ++ (List.range n).map (fun i => ((0 : ℚ), some (disUb sr cfg t0 i)))
      ++ [((0 : ℚ), none)]
    A_ub := (List.range n).map (fun k => lpRowSoc cfg n k)
      ++ (List.range n).map (fun k => (lpRowSoc cfg n k).map (fun q => -q))
      ++ [lpEndRow cfg n]
    b_ub := List.replicate n (cfg.soc_max - soc0)
      ++ List.replicate n (-(cfg.soc_min - soc0))
      ++ [cfg.end_soc_target - soc0] }

/-- Dot product of an `A_ub` row with the variable vector. -/
def dotRow (r x : List ℚ) : ℚ :=
  (List.zip r x).foldr (fun p acc => p.1 * p.2 + acc) 0

/-- One variable against its `(lower, upper?)` bound pair. -/
def inBoundsB (b : ℚ × Option ℚ) (v : ℚ) : Bool :=
  decide (b.1 ≤ v) &&
    (match b.2 with
     | none => true
     | some u => decide (v ≤ u))

/-- Full feasibility of a point for a bounded LP: right dimension, all
variable bounds, all `A_ub x ≤ b_ub` rows.  This is the guarantee `linprog`
gives for any point it reports with `res.success`. -/
def feasB (p : LPProblem) (x : List ℚ) : Bool :=
  decide (x.length = 2 * p.n + 1) &&
    (List.range x.length).all (fun i => inBoundsB (p.bounds.getD i (0, none)) (x.getD i 0)) &&
    (List.range p.A_ub.length).all
      (fun j => decide (dotRow (p.A_ub.getD j []) x ≤ p.b_ub.getD j 0))

/-- An LP oracle is sound when every point it returns is feasible for the
problem it was asked. `none` models `linprog` reporting failure. -/
def OracleSound (lp : LPProblem → Option (List ℚ)) : Prop :=
  ∀ p x, lp p = some x → feasB p x = true

/-- An oracle that always reports failure; vacuously sound. It realizes the
executions in which every `linprog` call ends with `res.success = False`. -/
def failOracle : LPProblem → Option (List ℚ) := fun _ => none

theorem failOracle_sound : OracleSound failOracle := by
  intro p x h
  exact absurd h (by simp [failOracle])

/-- An oracle that answers with the all-zero point whenever that point is
feasible, and reports failure otherwise; sound by construction.  On the
degenerate windows used below (battery already full, no deficit) the zero
point is also the true optimum of the LP, so this oracle reproduces the
behaviour of the real solver there. -/
def zeroIfFeasOracle : LPProblem → Option (List ℚ) := fun p =>
  if feasB p (List.replicate (2 * p.n + 1) 0) then some (List.replicate (2 * p.n + 1) 0)
  else none

theorem zeroIfFeasOracle_sound : OracleSound zeroIfFeasOracle := by
  intro p x h
  simp only [zeroIfFeasOracle] at h
  split at h
  · cases h
    assumption
  · cases h

/-- `solve_lp` (modelo.py lines 70-145): build the LP of `[t0, t1)`, call the
solver, fall back to all-zero decisions when it fails; `n ≤ 0` returns empty
vectors without reaching the solver. -/
def solve_lp (lp : LPProblem → Option (List ℚ)) (sr : Series) (cfg : Config)
    (t0 t1 : ℕ) (soc0 : ℚ) : List ℚ × List ℚ :=
  let n := t1 - t0
  if n = 0 then ([], [])
  else
    match lp (mkLP sr cfg t0 t1 soc0) with
    | none => (List.replicate n 0, List.replicate n 0)
    | some x => (x.take n, (x.drop n).take n)

/-- `np.clip(v, lo, hi)`. -/
def clip (v lo hi : ℚ) : ℚ := min (max v lo) hi

/-- One committed SOC update (modelo.py lines 195-196 / 230-231):
`soc + (ch*eta_ch - dis/eta_dis)/cap`, clipped into `[soc_min, soc_max]`. -/
def socStep (cfg : Config) (socv ch dis : ℚ) : ℚ :=
  clip (socv + (ch * cfg.eta_ch - dis / cfg.eta_dis) / cfg.battery_mwh)
    cfg.soc_min cfg.soc_max

/-- The SOC trajectory obtained by replaying `s` steps of the decision
vectors starting at local offset `i` from value `socv` (the loops of
modelo.py lines 193-197 and 221-232). -/
def socSeq (cfg : Config) (ch dis : List ℚ) (socv : ℚ) (i : ℕ) : ℕ → ℚ
  | 0 => socv
  | s + 1 => socStep cfg (socSeq cfg ch dis socv i s) (ch.getD (i + s) 0) (dis.getD (i + s) 0)

/-- `soc_at_end`: full replay of an `n`-step window from `soc0`. -/
def socAfter (cfg : Config) (soc0 : ℚ) (ch dis : List ℚ) (n : ℕ) : ℚ :=
  socSeq cfg ch dis soc0 0 n

/-- The mutable NumPy buffers of `simular`, plus the ghost `written` mask. -/
structure Buffers where
  soc : List ℚ
  batt_charge : List ℚ
  batt_discharge : List ℚ
  grid_import : List ℚ
  curtail : List ℚ
  written : List Bool
deriving DecidableEq

/-- Ghost record of one accepted cycle: its half-open window, the `soc`
passed to `solve_lp`, and the replayed SOC at its end. -/
structure Cycle where
  start : ℕ
  stop : ℕ
  soc0 : ℚ
  socEnd : ℚ
deriving DecidableEq

/-- The loop state of `simular`: `current`, `cand_idx`, the buffers, and the
ghost cycle trace / solver-call counter. -/
structure SimState where
  current : ℕ
  cand_idx : ℕ
  buf : Buffers
  cycles : List Cycle
  nsolves : ℕ
deriving DecidableEq

/-- The commit loop of an accepted window (modelo.py lines 220-232): for
`m` remaining steps starting at local offset `i` (global index `t0 + i`),
write the decisions, derived `grid_import`/`curtail`, and the clipped SOC. -/
def applyGo (sr : Series) (cfg : Config) (t0 : ℕ) (ch dis : List ℚ) :
    ℕ → ℕ → ℚ → Buffers → Buffers
  | 0, _, _, b => b
  | m + 1, i, socK, b =>
    let k := t0 + i
    let chi := ch.getD i 0
    let dii := dis.getD i 0
    let socK' := socStep cfg socK chi dii
    applyGo sr cfg t0 ch dis m (i + 1) socK'
      { soc := b.soc.set (k + 1) socK'
        batt_charge := b.batt_charge.set k chi
        batt_discharge := b.batt_discharge.set k dii
        grid_import := b.grid_import.set k (deficitAt sr k - dii)
        curtail := b.curtail.set k (excessAt sr k - chi)
        written := b.written.set k true }

/-- The passive fill loops (modelo.py lines 165-170 and 260-265): `m` steps
from index `t`, battery untouched, SOC propagated unchanged. -/
def passiveGo (sr : Series) : ℕ → ℕ → Buffers → Buffers
  | 0, _, b => b
  | m + 1, t, b =>
    passiveGo sr m (t + 1)
      { soc := b.soc.set (t + 1) (b.soc.getD t 0)
        batt_charge := b.batt_charge.set t 0
        batt_discharge := b.batt_discharge.set t 0
        grid_import := b.grid_import.set t (deficitAt sr t)
        curtail := b.curtail.set t (excessAt sr t)
        written := b.written.set t true }

/-- The pointer move of modelo.py lines 241-242, fuel-indexed so that it
reduces definitionally: advance `idx` past every candidate `< cur`.  The fuel
`cand.length - idx` supplied by `advanceIdx` is exactly enough, since the
loop stops at `idx = cand.length` at the latest. -/
def advanceIdxGo (cand : List ℕ) (cur : ℕ) : ℕ → ℕ → ℕ
  | 0, idx => idx
  | f + 1, idx =>
    if idx < cand.length ∧ cand.getD idx 0 < cur then advanceIdxGo cand cur f (idx + 1)
    else idx

/-- `while cand_idx < len(cand) and cand[cand_idx] < current: cand_idx += 1`. -/
def advanceIdx (cand : List ℕ) (cur : ℕ) (idx : ℕ) : ℕ :=
  advanceIdxGo cand cur (cand.length - idx) idx

/-- The next-cycle scan of modelo.py lines 245-256, fuel-indexed: from
position `j`, the first candidate below `n_total` whose recorded SOC leaves
headroom; returns the new `(current, cand_idx)` or `none` when no cycle start
is found. -/
def scanNextGo (cand : List ℕ) (soc : List ℚ) (nT : ℕ) (thr : ℚ) :
    ℕ → ℕ → Option (ℕ × ℕ)
  | 0, _ => none
  | f + 1, j =>
    if j < cand.length then
      if nT ≤ cand.getD j 0 then none
      else if soc.getD (cand.getD j 0) 0 < thr then some (cand.getD j 0, j + 1)
      else scanNextGo cand soc nT thr f (j + 1)
    else none

/-- The scan loop with its exact fuel. -/
def scanNext (cand : List ℕ) (soc : List ℚ) (nT : ℕ) (thr : ℚ) (j : ℕ) :
    Option (ℕ × ℕ) :=
  scanNextGo cand soc nT thr (cand.length + 1 - j) j

/-- The initial-pointer scan of modelo.py lines 153-155, fuel-indexed: skip
candidates whose (initial) recorded SOC is already full. -/
def startPtrGoF (cand : List ℕ) (soc : List ℚ) (thr : ℚ) : ℕ → ℕ → ℕ
  | 0, i => i
  | f + 1, i =>
    if i < cand.length ∧ thr ≤ soc.getD (cand.getD i 0) 0 then
      startPtrGoF cand soc thr f (i + 1)
    else i

/-- `while start_ptr < len(cand) and soc[cand[start_ptr]] >= soc_max - eps`. -/
def startPtr (cand : List ℕ) (soc : List ℚ) (thr : ℚ) : ℕ :=
  startPtrGoF cand soc thr cand.length 0

/-- The headroom condition of modelo.py lines 202-205. -/
def hasSpaceB (sr : Series) (cfg : Config) (nT t_end : ℕ) (socAtEnd : ℚ) : Bool :=
  if t_end < nT ∧ hasExcess sr cfg t_end = true then
    decide (socAtEnd < cfg.soc_max - cfg.soc_full_epsilon)
  else true

/-- Result of the extension loop: accepted decision vectors, the replayed SOC
at the accepted end, the final candidate pointer and window end, and the
number of `solve_lp` calls made. -/
structure ExtResult where
  ch : List ℚ
  dis : List ℚ
  socEnd : ℚ
  cand_idx : ℕ
  t_end : ℕ
  solves : ℕ
deriving DecidableEq

/-- `max_extend_steps = 10` (modelo.py line 185). -/
def maxExtendSteps : ℕ := 10

/-- The extension loop of modelo.py lines 188-217: solve the window, replay
the SOC, and either accept (headroom at `t_end`, series end, or the step cap
`remaining = 0` reached) or extend `t_end` to the next candidate and retry. -/
def extendLoop (lp : LPProblem → Option (List ℚ)) (sr : Series) (cfg : Config)
    (cand : List ℕ) (nT current : ℕ) (soc0 : ℚ) :
    ℕ → ℕ → ℕ → ℕ → ExtResult
  | 0, ci, te, k =>
    let p := solve_lp lp sr cfg current te soc0
    { ch := p.1, dis := p.2, socEnd := socAfter cfg soc0 p.1 p.2 (te - current)
      cand_idx := ci, t_end := te, solves := k + 1 }
  | r + 1, ci, te, k =>
    let p := solve_lp lp sr cfg current te soc0
    let se := socAfter cfg soc0 p.1 p.2 (te - current)
    if hasSpaceB sr cfg nT te se = true ∨ te = nT then
      { ch := p.1, dis := p.2, socEnd := se, cand_idx := ci, t_end := te, solves := k + 1 }
    else
      let ci' := ci + 1
      let te' := if ci' < cand.length then cand.getD ci' 0 else nT
      extendLoop lp sr cfg cand nT current soc0 r ci' te' (k + 1)

/-- One iteration of the outer cycle loop (modelo.py lines 176-256), split
into "continue with this state" (`inl`) and "tail filled passively, loop ends"
(`inr`). -/
def simStep (lp : LPProblem → Option (List ℚ)) (sr : Series) (cfg : Config)
    (cand : List ℕ) (nT : ℕ) (st : SimState) : SimState ⊕ SimState :=
  let t_end0 := if st.cand_idx < cand.length then cand.getD st.cand_idx 0 else nT
  let soc0 := st.buf.soc.getD st.current 0
  let r := extendLoop lp sr cfg cand nT st.current soc0 maxExtendSteps st.cand_idx t_end0 0
  let buf1 := applyGo sr cfg st.current r.ch r.dis (r.t_end - st.current) 0 soc0 st.buf
  let cycles1 := st.cycles ++ [⟨st.current, r.t_end, soc0, r.socEnd⟩]
  let ns1 := st.nsolves + r.solves
  let ci2 := advanceIdx cand r.t_end r.cand_idx
  match scanNext cand buf1.soc nT (cfg.soc_max - cfg.soc_full_epsilon) ci2 with
  | some pr =>
    Sum.inl { current := pr.1, cand_idx := pr.2, buf := buf1, cycles := cycles1, nsolves := ns1 }
  | none =>
    Sum.inr { current := nT, cand_idx := ci2
              buf := passiveGo sr (nT - r.t_end) r.t_end buf1
              cycles := cycles1, nsolves := ns1 }

/-- The outer `while current < n_total` loop, fuel-indexed.  `none` (fuel
exhausted) is proven unreachable for the fuel `simRun` supplies. -/
def simLoop (lp : LPProblem → Option (List ℚ)) (sr : Series) (cfg : Config)
    (cand : List ℕ) (nT : ℕ) : ℕ → SimState → Option SimState
  | 0, _ => none
  | fuel + 1, st =>
    if st.current < nT then
      match simStep lp sr cfg cand nT st with
      | Sum.inl st1 => simLoop lp sr cfg cand nT fuel st1
      | Sum.inr st1 => some st1
    else some st

/-- The buffers as `simular` initializes them: `np.zeros`, `soc[0] = soc_ini`,
and the ghost mask all-false. -/
def simInit (cfg : Config) (nT : ℕ) : Buffers :=
  { soc := (List.replicate (nT + 1) (0 : ℚ)).set 0 cfg.soc_ini
    batt_charge := List.replicate nT 0
    batt_discharge := List.replicate nT 0
    grid_import := List.replicate nT 0
    curtail := List.replicate nT 0
    written := List.replicate nT false }

/-- The cycle portion of `simular` when the candidate list is nonempty:
choose the start pointer (lines 153-161), fill the pre-cycle stretch
passively (lines 165-170), then run the cycle loop. -/
def simRun (lp : LPProblem → Option (List ℚ)) (sr : Series) (cfg : Config) :
    Option SimState :=
  let nT := nTotal sr
  let cand := candidates sr cfg
  let buf0 := simInit cfg nT
  let sp0 := startPtr cand buf0.soc (cfg.soc_max - cfg.soc_full_epsilon)
  let sp := if cand.length ≤ sp0 then 0 else sp0
  let t_start := cand.getD sp 0
  let buf1 := passiveGo sr t_start 0 buf0
  simLoop lp sr cfg cand nT (cand.length + 1)
    { current := t_start, cand_idx := sp + 1, buf := buf1, cycles := [], nsolves := 0 }

/-- The output columns `simular` appends to the result dataframe. -/
structure Output where
  pv_to_load : List ℚ
  batt_charge : List ℚ
  batt_discharge : List ℚ
  grid_import : List ℚ
  curtail : List ℚ
  soc : List ℚ
deriving DecidableEq

/-- Output columns from a final loop state; `soc` is `soc[1:]`. -/
def outputOf (sr : Series) (st : SimState) : Output :=
  { pv_to_load := (List.range (nTotal sr)).map (pvToLoadAt sr)
    batt_charge := st.buf.batt_charge
    batt_discharge := st.buf.batt_discharge
    grid_import := st.buf.grid_import
    curtail := st.buf.curtail
    soc := st.buf.soc.drop 1 }

/-- Output plus the ghost instrumentation. -/
structure RunResult where
  out : Output
  written : List Bool
  cycles : List Cycle
  nsolves : ℕ
deriving DecidableEq

/-- How a run of `simular` can fail to produce a result dataframe. -/
inductive SimError where
  | zeroDivision
  | fuelExhausted
deriving DecidableEq

/-- The early return of modelo.py lines 51-59 (no candidates): battery
untouched, `grid_import = deficit`, the `curtail` column set to the scalar
`0.0`, `soc` constant at `soc[0] = soc_ini`. -/
def passiveResult (sr : Series) (cfg : Config) : RunResult :=
  { out := { pv_to_load := (List.range (nTotal sr)).map (pvToLoadAt sr)
             batt_charge := List.replicate (nTotal sr) 0
             batt_discharge := List.replicate (nTotal sr) 0
             grid_import := (List.range (nTotal sr)).map (deficitAt sr)
             curtail := List.replicate (nTotal sr) 0
             soc := List.replicate (nTotal sr) cfg.soc_ini }
    written := List.replicate (nTotal sr) true
    cycles := []
    nsolves := 0 }

/-- `simular`, with ghost instrumentation.  When the candidate list is
nonempty the code always reaches the matrix construction of `solve_lp` on a
nonempty window, so a zero `battery_mwh` or zero `eta_dis` raises
`ZeroDivisionError` (`eta_ch / cap`, `-1.0 / (eta_dis * cap)`); this is
modelled by the `.error .zeroDivision` branch. -/
def simularFull (lp : LPProblem → Option (List ℚ)) (sr : Series) (cfg : Config) :
    Except SimError RunResult :=
  if (candidates sr cfg).length = 0 then .ok (passiveResult sr cfg)
  else if cfg.battery_mwh = 0 ∨ cfg.eta_dis = 0 then .error .zeroDivision
  else
    match simRun lp sr cfg with
    | some st => .ok { out := outputOf sr st, written := st.buf.written
                       cycles := st.cycles, nsolves := st.nsolves }
    | none => .error .fuelExhausted

/-- The observable behaviour of `simular`: its output columns, or the raised
error. -/
def simularE (lp : LPProblem → Option (List ℚ)) (sr : Series) (cfg : Config) :
    Except SimError Output :=
  (simularFull lp sr cfg).map (fun r => r.out)

theorem getD_set_self {α : Type} {l : List α} {k : ℕ} {v d : α} (h : k < l.length) :
    (l.set k v).getD k d = v := by
  rw [List.getD_eq_getElem?_getD, List.getElem?_set_self (by simpa using h)]
  rfl

theorem getD_set_ne {α : Type} {l : List α} {k j : ℕ} (h : k ≠ j) (v d : α) :
    (l.set k v).getD j d = l.getD j d := by
  rw [List.getD_eq_getElem?_getD, List.getElem?_set_ne h, ← List.getD_eq_getElem?_getD]

theorem getD_map_range {α : Type} {f : ℕ → α} {n i : ℕ} (h : i < n) (d : α) :
    ((List.range n).map f).getD i d = f i := by
  rw [List.getD_eq_getElem?_getD, List.getElem?_map, List.getElem?_range h]
  rfl

theorem getD_replicate_lt {α : Type} {n i : ℕ} {a d : α} (h : i < n) :
    (List.replicate n a).getD i d = a := by
  rw [List.getD_eq_getElem?_getD, List.getElem?_replicate, if_pos h]
  rfl

theorem getD_append_left {α : Type} {l₁ l₂ : List α} {i : ℕ} (h : i < l₁.length) (d : α) :
    (l₁ ++ l₂).getD i d = l₁.getD i d := by
  rw [List.getD_eq_getElem?_getD, List.getElem?_append, if_pos h,
    ← List.getD_eq_getElem?_getD]

theorem getD_append_right {α : Type} {l₁ l₂ : List α} {i : ℕ} (h : l₁.length ≤ i) (d : α) :
    (l₁ ++ l₂).getD i d = l₂.getD (i - l₁.length) d := by
  rw [List.getD_eq_getElem?_getD, List.getElem?_append_right h,
    ← List.getD_eq_getElem?_getD]

theorem getD_take_lt {α : Type} {l : List α} {n i : ℕ} (h : i < n) (d : α) :
    (l.take n).getD i d = l.getD i d := by
  rw [List.getD_eq_getElem?_getD, List.getElem?_take, if_pos h,
    ← List.getD_eq_getElem?_getD]

theorem getD_drop {α : Type} {l : List α} {n i : ℕ} (d : α) :
    (l.drop n).getD i d = l.getD (n + i) d := by
  rw [List.getD_eq_getElem?_getD, List.getElem?_drop, ← List.getD_eq_getElem?_getD]

theorem feasB_length {p : LPProblem} {x : List ℚ} (h : feasB p x = true) :
    x.length = 2 * p.n + 1 := by
  simp only [feasB, Bool.and_eq_true, decide_eq_true_eq] at h
  exact h.1.1

theorem feasB_bounds {p : LPProblem} {x : List ℚ} (h : feasB p x = true)
    {i : ℕ} (hi : i < x.length) :
    inBoundsB (p.bounds.getD i (0, none)) (x.getD i 0) = true := by
  simp only [feasB, Bool.and_eq_true, List.all_eq_true, List.mem_range] at h
  exact h.1.2 i hi

theorem inBoundsB_some {lo u v : ℚ} (h : inBoundsB (lo, some u) v = true) :
    lo ≤ v ∧ v ≤ u := by
  simp only [inBoundsB, Bool.and_eq_true, decide_eq_true_eq] at h
  exact h

theorem mkLP_n (sr : Series) (cfg : Config) (t0 t1 : ℕ) (soc0 : ℚ) :
    (mkLP sr cfg t0 t1 soc0).n = t1 - t0 := rfl

theorem mkLP_bounds_ch {sr : Series} {cfg : Config} {t0 t1 : ℕ} {soc0 : ℚ}
    {i : ℕ} (hi : i < t1 - t0) :
    (mkLP sr cfg t0 t1 soc0).bounds.getD i (0, none) = (0, some (chUb sr cfg t0 i)) := by
  show (((List.range (t1 - t0)).map (fun i => ((0 : ℚ), some (chUb sr cfg t0 i)))
      ++ (List.range (t1 - t0)).map (fun i => ((0 : ℚ), some (disUb sr cfg t0 i)))
      ++ [((0 : ℚ), none)]).getD i (0, none)) = _
  rw [List.append_assoc, getD_append_left (by simpa using hi), getD_map_range hi]

theorem mkLP_bounds_dis {sr : Series} {cfg : Config} {t0 t1 : ℕ} {soc0 : ℚ}
    {i : ℕ} (hi : i < t1 - t0) :
    (mkLP sr cfg t0 t1 soc0).bounds.getD ((t1 - t0) + i) (0, none)
      = (0, some (disUb sr cfg t0 i)) := by
  show (((List.range (t1 - t0)).map (fun i => ((0 : ℚ), some (chUb sr cfg t0 i)))
      ++ (List.range (t1 - t0)).map (fun i => ((0 : ℚ), some (disUb sr cfg t0 i)))
      ++ [((0 : ℚ), none)]).getD ((t1 - t0) + i) (0, none)) = _
  rw [List.append_assoc, getD_append_right (by simp), List.length_map,
    List.length_range, Nat.add_sub_cancel_left, getD_append_left (by simpa using hi),
    getD_map_range hi]

/-- Per-index guarantees of `solve_lp` under a sound oracle: each returned
decision pair is either the all-zero fallback entry or lies within the LP
variable bounds of the window. -/
theorem solve_lp_cases {lp : LPProblem → Option (List ℚ)} (hlp : OracleSound lp)
    (sr : Series) (cfg : Config) {t0 t1 : ℕ} (soc0 : ℚ) {i : ℕ} (hi : i < t1 - t0) :
    ((solve_lp lp sr cfg t0 t1 soc0).1.getD i 0 = 0 ∧
      (solve_lp lp sr cfg t0 t1 soc0).2.getD i 0 = 0) ∨
    (0 ≤ (solve_lp lp sr cfg t0 t1 soc0).1.getD i 0 ∧
      (solve_lp lp sr cfg t0 t1 soc0).1.getD i 0 ≤ chUb sr cfg t0 i ∧
      0 ≤ (solve_lp lp sr cfg t0 t1 soc0).2.getD i 0 ∧
      (solve_lp lp sr cfg t0 t1 soc0).2.getD i 0 ≤ disUb sr cfg t0 i) := by
  unfold solve_lp
  have hn : ¬(t1 - t0 = 0) := by omega
  rw [if_neg hn]
  cases hx : lp (mkLP sr cfg t0 t1 soc0) with
  | none =>
    left
    constructor <;> exact getD_replicate_lt hi
  | some x =>
    right
    have hfeas := hlp _ _ hx
    have hxlen : x.length = 2 * (t1 - t0) + 1 := by
      have := feasB_length hfeas
      rwa [mkLP_n] at this
    have hch : (x.take (t1 - t0)).getD i 0 = x.getD i 0 := getD_take_lt hi 0
    have hdis : ((x.drop (t1 - t0)).take (t1 - t0)).getD i 0 = x.getD ((t1 - t0) + i) 0 := by
      rw [getD_take_lt hi 0, getD_drop]
    have hb1 := @feasB_bounds _ _ hfeas i (by omega)
    have hb2 := @feasB_bounds _ _ hfeas ((t1 - t0) + i) (by omega)
    rw [mkLP_bounds_ch hi] at hb1
    rw [mkLP_bounds_dis hi] at hb2
    have h1 := inBoundsB_some hb1
    have h2 := inBoundsB_some hb2
    simp only [hch, hdis]
    exact ⟨h1.1, h1.2, h2.1, h2.2⟩

/-- Lengths of the vectors returned by `solve_lp` are irrelevant to the
claims (all access is via `getD`), but the fallback case of a failing solver
is: it returns all-zero vectors of the window length. -/
theorem solve_lp_fail {lp : LPProblem → Option (List ℚ)} (sr : Series) (cfg : Config)
    {t0 t1 : ℕ} (soc0 : ℚ) (h : t0 < t1)
    (hfail : lp (mkLP sr cfg t0 t1 soc0) = none) :
    solve_lp lp sr cfg t0 t1 soc0
      = (List.replicate (t1 - t0) 0, List.replicate (t1 - t0) 0) := by
  unfold solve_lp
  rw [if_neg (by omega), hfail]

/-- Length facts for all six buffer lists. -/
def BufLen (nT : ℕ) (b : Buffers) : Prop :=
  b.soc.length = nT + 1 ∧ b.batt_charge.length = nT ∧ b.batt_discharge.length = nT ∧
  b.grid_import.length = nT ∧ b.curtail.length = nT ∧ b.written.length = nT

theorem applyGo_buflen (sr : Series) (cfg : Config) (t0 : ℕ) (ch dis : List ℚ)
    {nT : ℕ} :
    ∀ m i socK b, BufLen nT b → BufLen nT (applyGo sr cfg t0 ch dis m i socK b) := by
  intro m
  induction m with
  | zero => intro i socK b hb; exact hb
  | succ m ih =>
    intro i socK b hb
    exact ih (i + 1) _ _ (by simp only [BufLen, List.length_set]; exact hb)

theorem passiveGo_buflen (sr : Series) {nT : ℕ} :
    ∀ m t b, BufLen nT b → BufLen nT (passiveGo sr m t b) := by
  intro m
  induction m with
  | zero => intro t b hb; exact hb
  | succ m ih =>
    intro t b hb
    exact ih (t + 1) _ (by simp only [BufLen, List.length_set]; exact hb)

/-- `applyGo` leaves every column entry outside `[t0+i, t0+i+m)` unchanged. -/
theorem applyGo_frame_cols (sr : Series) (cfg : Config) (t0 : ℕ) (ch dis : List ℚ) :
    ∀ m i socK b t, (t < t0 + i ∨ t0 + i + m ≤ t) →
      ((applyGo sr cfg t0 ch dis m i socK b).batt_charge.getD t 0
          = b.batt_charge.getD t 0 ∧
        (applyGo sr cfg t0 ch dis m i socK b).batt_discharge.getD t 0
          = b.batt_discharge.getD t 0 ∧
        (applyGo sr cfg t0 ch dis m i socK b).grid_import.getD t 0
          = b.grid_import.getD t 0 ∧
        (applyGo sr cfg t0 ch dis m i socK b).curtail.getD t 0
          = b.curtail.getD t 0 ∧
        (applyGo sr cfg t0 ch dis m i socK b).written.getD t false
          = b.written.getD t false) := by
  intro m
  induction m with
  | zero => intro i socK b t _; exact ⟨rfl, rfl, rfl, rfl, rfl⟩
  | succ m ih =>
    intro i socK b t ht
    have hne : t0 + i ≠ t := by omega
    have ht' : t < t0 + (i + 1) ∨ t0 + (i + 1) + m ≤ t := by omega
    simp only [applyGo]
    refine ⟨?_, ?_, ?_, ?_, ?_⟩
    · rw [(ih (i + 1) _ _ t ht').1]; exact getD_set_ne hne _ _
    · rw [(ih (i + 1) _ _ t ht').2.1]; exact getD_set_ne hne _ _
    · rw [(ih (i + 1) _ _ t ht').2.2.1]; exact getD_set_ne hne _ _
    · rw [(ih (i + 1) _ _ t ht').2.2.2.1]; exact getD_set_ne hne _ _
    · rw [(ih (i + 1) _ _ t ht').2.2.2.2]; exact getD_set_ne hne _ _

/-- `applyGo` leaves every `soc` entry outside `(t0+i, t0+i+m]` unchanged. -/
theorem applyGo_frame_soc (sr : Series) (cfg : Config) (t0 : ℕ) (ch dis : List ℚ) :
    ∀ m i socK b s, (s ≤ t0 + i ∨ t0 + i + m < s) →
      (applyGo sr cfg t0 ch dis m i socK b).soc.getD s 0 = b.soc.getD s 0 := by
  intro m
  induction m with
  | zero => intro i socK b s _; rfl
  | succ m ih =>
    intro i socK b s hs
    have hne : t0 + i + 1 ≠ s := by omega
    have hs' : s ≤ t0 + (i + 1) ∨ t0 + (i + 1) + m < s := by omega
    simp only [applyGo]
    rw [ih (i + 1) _ _ s hs']
    exact getD_set_ne hne _ _

/-- `passiveGo` leaves every column entry outside `[t, t+m)` unchanged. -/
theorem passiveGo_frame_cols (sr : Series) :
    ∀ m t b u, (u < t ∨ t + m ≤ u) →
      ((passiveGo sr m t b).batt_charge.getD u 0 = b.batt_charge.getD u 0 ∧
        (passiveGo sr m t b).batt_discharge.getD u 0 = b.batt_discharge.getD u 0 ∧
        (passiveGo sr m t b).grid_import.getD u 0 = b.grid_import.getD u 0 ∧
        (passiveGo sr m t b).curtail.getD u 0 = b.curtail.getD u 0 ∧
        (passiveGo sr m t b).written.getD u false = b.written.getD u false) := by
  intro m
  induction m with
  | zero => intro t b u _; exact ⟨rfl, rfl, rfl, rfl, rfl⟩
  | succ m ih =>
    intro t b u hu
    have hne : t ≠ u := by omega
    have hu' : u < t + 1 ∨ (t + 1) + m ≤ u := by omega
    simp only [passiveGo]
    refine ⟨?_, ?_, ?_, ?_, ?_⟩
    · rw [(ih (t + 1) _ u hu').1]; exact getD_set_ne hne _ _
    · rw [(ih (t + 1) _ u hu').2.1]; exact getD_set_ne hne _ _
    · rw [(ih (t + 1) _ u hu').2.2.1]; exact getD_set_ne hne _ _
    · rw [(ih (t + 1) _ u hu').2.2.2.1]; exact getD_set_ne hne _ _
    · rw [(ih (t + 1) _ u hu').2.2.2.2]; exact getD_set_ne hne _ _

/-- `passiveGo` leaves every `soc` entry outside `(t, t+m]` unchanged. -/
theorem passiveGo_frame_soc (sr : Series) :
    ∀ m t b s, (s ≤ t ∨ t + m < s) →
      (passiveGo sr m t b).soc.getD s 0 = b.soc.getD s 0 := by
  intro m
  induction m with
  | zero => intro t b s _; rfl
  | succ m ih =>
    intro t b s hs
    have hne : t + 1 ≠ s := by omega
    have hs' : s ≤ t + 1 ∨ (t + 1) + m < s := by omega
    simp only [passiveGo]
    rw [ih (t + 1) _ s hs']
    exact getD_set_ne hne _ _

theorem socSeq_shift (cfg : Config) (ch dis : List ℚ) (socK : ℚ) (i : ℕ) :
    ∀ s, socSeq cfg ch dis (socStep cfg socK (ch.getD i 0) (dis.getD i 0)) (i + 1) s
      = socSeq cfg ch dis socK i (s + 1) := by
  intro s
  induction s with
  | zero => simp [socSeq]
  | succ s ih =>
    show socStep cfg _ (ch.getD (i + 1 + s) 0) (dis.getD (i + 1 + s) 0) = _
    rw [ih]
    show _ = socStep cfg _ (ch.getD (i + (s + 1)) 0) (dis.getD (i + (s + 1)) 0)
    have harith : i + 1 + s = i + (s + 1) := by omega
    rw [harith]

theorem socStep_mem {cfg : Config} (h : cfg.soc_min ≤ cfg.soc_max) (s c d : ℚ) :
    cfg.soc_min ≤ socStep cfg s c d ∧ socStep cfg s c d ≤ cfg.soc_max := by
  unfold socStep clip
  exact ⟨le_min (le_max_right _ _) h, min_le_right _ _⟩

/-- Committed values of an applied window: inside `[t0+i, t0+i+m)` the columns
hold the decisions and the derived `grid_import`/`curtail`, the mask is set,
and `soc` holds the replayed clipped trajectory. -/
theorem applyGo_inside (sr : Series) (cfg : Config) (t0 : ℕ) (ch dis : List ℚ)
    {nT : ℕ} :
    ∀ m i socK b, BufLen nT b → t0 + i + m ≤ nT →
      ∀ j, j < m →
      ((applyGo sr cfg t0 ch dis m i socK b).batt_charge.getD (t0 + i + j) 0
          = ch.getD (i + j) 0 ∧
        (applyGo sr cfg t0 ch dis m i socK b).batt_discharge.getD (t0 + i + j) 0
          = dis.getD (i + j) 0 ∧
        (applyGo sr cfg t0 ch dis m i socK b).grid_import.getD (t0 + i + j) 0
          = deficitAt sr (t0 + i + j) - dis.getD (i + j) 0 ∧
        (applyGo sr cfg t0 ch dis m i socK b).curtail.getD (t0 + i + j) 0
          = excessAt sr (t0 + i + j) - ch.getD (i + j) 0 ∧
        (applyGo sr cfg t0 ch dis m i socK b).written.getD (t0 + i + j) false = true ∧
        (applyGo sr cfg t0 ch dis m i socK b).soc.getD (t0 + i + j + 1) 0
          = socSeq cfg ch dis socK i (j + 1)) := by
  intro m
  induction m with
  | zero => intro i socK b _ _ j hj; omega
  | succ m ih =>
    intro i socK b hb hle j hj
    have hb' : BufLen nT
        (Buffers.mk (b.soc.set (t0 + i + 1) (socStep cfg socK (ch.getD i 0) (dis.getD i 0)))
          (b.batt_charge.set (t0 + i) (ch.getD i 0))
          (b.batt_discharge.set (t0 + i) (dis.getD i 0))
          (b.grid_import.set (t0 + i) (deficitAt sr (t0 + i) - dis.getD i 0))
          (b.curtail.set (t0 + i) (excessAt sr (t0 + i) - ch.getD i 0))
          (b.written.set (t0 + i) true)) := by
      simp only [BufLen, List.length_set]
      exact hb
    cases j with
    | zero =>
      simp only [applyGo, Nat.add_zero]
      refine ⟨?_, ?_, ?_, ?_, ?_, ?_⟩
      · rw [(applyGo_frame_cols sr cfg t0 ch dis m (i + 1) _ _ (t0 + i) (by omega)).1,
          getD_set_self (by rw [hb.2.1]; omega)]
      · rw [(applyGo_frame_cols sr cfg t0 ch dis m (i + 1) _ _ (t0 + i) (by omega)).2.1,
          getD_set_self (by rw [hb.2.2.1]; omega)]
      · rw [(applyGo_frame_cols sr cfg t0 ch dis m (i + 1) _ _ (t0 + i) (by omega)).2.2.1,
          getD_set_self (by rw [hb.2.2.2.1]; omega)]
      · rw [(applyGo_frame_cols sr cfg t0 ch dis m (i + 1) _ _ (t0 + i) (by omega)).2.2.2.1,
          getD_set_self (by rw [hb.2.2.2.2.1]; omega)]
      · rw [(applyGo_frame_cols sr cfg t0 ch dis m (i + 1) _ _ (t0 + i) (by omega)).2.2.2.2,
          getD_set_self (by rw [hb.2.2.2.2.2]; omega)]
      · rw [applyGo_frame_soc sr cfg t0 ch dis m (i + 1) _ _ (t0 + i + 1) (by omega),
          getD_set_self (by rw [hb.1]; omega)]
        simp [socSeq]
    | succ j =>
      have := ih (i + 1) (socStep cfg socK (ch.getD i 0) (dis.getD i 0)) _
        hb' (by omega) j (by omega)
      simp only [applyGo]
      have e1 : t0 + (i + 1) + j = t0 + i + (j + 1) := by omega
      have e2 : (i + 1) + j = i + (j + 1) := by omega
      rw [e1, e2] at this
      refine ⟨this.1, this.2.1, this.2.2.1, this.2.2.2.1, this.2.2.2.2.1, ?_⟩
      rw [this.2.2.2.2.2, socSeq_shift]

/-- Values written by a passive fill: battery untouched, full pass-through,
and the SOC value at the fill start propagated unchanged. -/
theorem passiveGo_inside (sr : Series) {nT : ℕ} :
    ∀ m t b, BufLen nT b → t + m ≤ nT →
      ∀ j, j < m →
      ((passiveGo sr m t b).batt_charge.getD (t + j) 0 = 0 ∧
        (passiveGo sr m t b).batt_discharge.getD (t + j) 0 = 0 ∧
        (passiveGo sr m t b).grid_import.getD (t + j) 0 = deficitAt sr (t + j) ∧
        (passiveGo sr m t b).curtail.getD (t + j) 0 = excessAt sr (t + j) ∧
        (passiveGo sr m t b).written.getD (t + j) false = true ∧
        (passiveGo sr m t b).soc.getD (t + j + 1) 0 = b.soc.getD t 0) := by
  intro m
  induction m with
  | zero => intro t b _ _ j hj; omega
  | succ m ih =>
    intro t b hb hle j hj
    have hb' : BufLen nT
        (Buffers.mk (b.soc.set (t + 1) (b.soc.getD t 0))
          (b.batt_charge.set t 0) (b.batt_discharge.set t 0)
          (b.grid_import.set t (deficitAt sr t))
          (b.curtail.set t (excessAt sr t)) (b.written.set t true)) := by
      simp only [BufLen, List.length_set]
      exact hb
    cases j with
    | zero =>
      simp only [passiveGo, Nat.add_zero]
      refine ⟨?_, ?_, ?_, ?_, ?_, ?_⟩
      · rw [(passiveGo_frame_cols sr m (t + 1) _ t (by omega)).1,
          getD_set_self (by rw [hb.2.1]; omega)]
      · rw [(passiveGo_frame_cols sr m (t + 1) _ t (by omega)).2.1,
          getD_set_self (by rw [hb.2.2.1]; omega)]
      · rw [(passiveGo_frame_cols sr m (t + 1) _ t (by omega)).2.2.1,
          getD_set_self (by rw [hb.2.2.2.1]; omega)]
      · rw [(passiveGo_frame_cols sr m (t + 1) _ t (by omega)).2.2.2.1,
          getD_set_self (by rw [hb.2.2.2.2.1]; omega)]
      · rw [(passiveGo_frame_cols sr m (t + 1) _ t (by omega)).2.2.2.2,
          getD_set_self (by rw [hb.2.2.2.2.2]; omega)]
      · rw [passiveGo_frame_soc sr m (t + 1) _ (t + 1) (by omega),
          getD_set_self (by rw [hb.1]; omega)]
    | succ j =>
      have := ih (t + 1) _ hb' (by omega) j (by omega)
      simp only [passiveGo]
      have e1 : t + 1 + j = t + (j + 1) := by omega
      rw [e1] at this
      refine ⟨this.1, this.2.1, this.2.2.1, this.2.2.2.1, this.2.2.2.2.1, ?_⟩
      rw [this.2.2.2.2.2]
      exact getD_set_self (by rw [hb.1]; omega)

theorem advanceIdxGo_spec (cand : List ℕ) (cur : ℕ) :
    ∀ f idx, cand.length ≤ idx + f →
      (idx ≤ advanceIdxGo cand cur f idx ∧
        (advanceIdxGo cand cur f idx < cand.length →
          cur ≤ cand.getD (advanceIdxGo cand cur f idx) 0) ∧
        (idx ≤ cand.length → advanceIdxGo cand cur f idx ≤ cand.length)) := by
  intro f
  induction f with
  | zero =>
    intro idx hf
    refine ⟨le_refl _, ?_, ?_⟩
    · intro hlt
      simp only [advanceIdxGo] at hlt
      omega
    · intro h
      exact h
  | succ f ih =>
    intro idx hf
    simp only [advanceIdxGo]
    by_cases hcond : idx < cand.length ∧ cand.getD idx 0 < cur
    · rw [if_pos hcond]
      have := ih (idx + 1) (by omega)
      exact ⟨by omega, this.2.1, fun _ => this.2.2 (by omega)⟩
    · rw [if_neg hcond]
      refine ⟨le_refl _, ?_, fun h => h⟩
      intro hlt
      rcases Decidable.not_and_iff_or_not.mp hcond with h1 | h2
      · omega
      · omega

theorem advanceIdx_spec (cand : List ℕ) (cur idx : ℕ) :
    idx ≤ advanceIdx cand cur idx ∧
      (advanceIdx cand cur idx < cand.length →
        cur ≤ cand.getD (advanceIdx cand cur idx) 0) ∧
      (idx ≤ cand.length → advanceIdx cand cur idx ≤ cand.length) :=
  advanceIdxGo_spec cand cur (cand.length - idx) idx (by omega)

theorem scanNextGo_some (cand : List ℕ) (soc : List ℚ) (nT : ℕ) (thr : ℚ) :
    ∀ f j cur' ci3, scanNextGo cand soc nT thr f j = some (cur', ci3) →
      ∃ jj, j ≤ jj ∧ jj < cand.length ∧ ci3 = jj + 1 ∧ cur' = cand.getD jj 0 ∧
        cur' < nT ∧ soc.getD cur' 0 < thr := by
  intro f
  induction f with
  | zero => intro j cur' ci3 h; exact absurd h (by simp [scanNextGo])
  | succ f ih =>
    intro j cur' ci3 h
    simp only [scanNextGo] at h
    by_cases h1 : j < cand.length
    · rw [if_pos h1] at h
      by_cases h2 : nT ≤ cand.getD j 0
      · rw [if_pos h2] at h
        cases h
      · rw [if_neg h2] at h
        by_cases h3 : soc.getD (cand.getD j 0) 0 < thr
        · rw [if_pos h3] at h
          injection h with h
          injection h with ha hb
          exact ⟨j, le_refl _, h1, hb.symm, ha.symm, by omega, ha ▸ h3⟩
        · rw [if_neg h3] at h
          obtain ⟨jj, hj1, hj2, hj3, hj4, hj5, hj6⟩ := ih (j + 1) cur' ci3 h
          exact ⟨jj, by omega, hj2, hj3, hj4, hj5, hj6⟩
    · rw [if_neg h1] at h
      cases h

theorem scanNext_some {cand : List ℕ} {soc : List ℚ} {nT : ℕ} {thr : ℚ}
    {j cur' ci3 : ℕ} (h : scanNext cand soc nT thr j = some (cur', ci3)) :
    ∃ jj, j ≤ jj ∧ jj < cand.length ∧ ci3 = jj + 1 ∧ cur' = cand.getD jj 0 ∧
      cur' < nT ∧ soc.getD cur' 0 < thr :=
  scanNextGo_some cand soc nT thr _ j cur' ci3 h

/-- Full specification of the extension loop, for a candidate list whose
entries all lie below `nT`, a window start below `nT`, and a tail of
candidates strictly beyond the start. -/
theorem extendLoop_spec (lp : LPProblem → Option (List ℚ)) (sr : Series)
    (cfg : Config) (cand : List ℕ) (nT current : ℕ) (soc0 : ℚ)
    (hcur : current < nT)
    (hlt : ∀ j, j < cand.length → cand.getD j 0 < nT) :
    ∀ r ci te k,
      ci ≤ cand.length →
      te = (if ci < cand.length then cand.getD ci 0 else nT) →
      (∀ j, ci ≤ j → j < cand.length → current < cand.getD j 0) →
      (ci ≤ (extendLoop lp sr cfg cand nT current soc0 r ci te k).cand_idx ∧
        (extendLoop lp sr cfg cand nT current soc0 r ci te k).cand_idx ≤ cand.length ∧
        (extendLoop lp sr cfg cand nT current soc0 r ci te k).solves + ci
          = k + 1 + (extendLoop lp sr cfg cand nT current soc0 r ci te k).cand_idx ∧
        (extendLoop lp sr cfg cand nT current soc0 r ci te k).t_end
          = (if (extendLoop lp sr cfg cand nT current soc0 r ci te k).cand_idx < cand.length
              then cand.getD (extendLoop lp sr cfg cand nT current soc0 r ci te k).cand_idx 0
              else nT) ∧
        current < (extendLoop lp sr cfg cand nT current soc0 r ci te k).t_end ∧
        (extendLoop lp sr cfg cand nT current soc0 r ci te k).t_end ≤ nT ∧
        ((extendLoop lp sr cfg cand nT current soc0 r ci te k).ch,
            (extendLoop lp sr cfg cand nT current soc0 r ci te k).dis)
          = solve_lp lp sr cfg current
              (extendLoop lp sr cfg cand nT current soc0 r ci te k).t_end soc0 ∧
        (extendLoop lp sr cfg cand nT current soc0 r ci te k).socEnd
          = socAfter cfg soc0 (extendLoop lp sr cfg cand nT current soc0 r ci te k).ch
              (extendLoop lp sr cfg cand nT current soc0 r ci te k).dis
              ((extendLoop lp sr cfg cand nT current soc0 r ci te k).t_end - current)) := by
  intro r
  induction r with
  | zero =>
    intro ci te k hci hte hgt
    have hcurte : current < te := by
      by_cases h : ci < cand.length
      · rw [hte, if_pos h]; exact hgt ci (le_refl _) h
      · rw [hte, if_neg h]; exact hcur
    have hteN : te ≤ nT := by
      by_cases h : ci < cand.length
      · rw [hte, if_pos h]; exact le_of_lt (hlt ci h)
      · rw [hte, if_neg h]
    refine ⟨le_refl _, hci, ?_, hte, hcurte, hteN, rfl, rfl⟩
    show k + 1 + ci = k + 1 + ci
    rfl
  | succ r ih =>
    intro ci te k hci hte hgt
    have hcurte : current < te := by
      by_cases h : ci < cand.length
      · rw [hte, if_pos h]; exact hgt ci (le_refl _) h
      · rw [hte, if_neg h]; exact hcur
    have hteN : te ≤ nT := by
      by_cases h : ci < cand.length
      · rw [hte, if_pos h]; exact le_of_lt (hlt ci h)
      · rw [hte, if_neg h]
    simp only [extendLoop]
    by_cases hstop :
        hasSpaceB sr cfg nT te
            (socAfter cfg soc0 (solve_lp lp sr cfg current te soc0).1
              (solve_lp lp sr cfg current te soc0).2 (te - current)) = true ∨ te = nT
    · rw [if_pos hstop]
      refine ⟨le_refl _, hci, ?_, hte, hcurte, hteN, rfl, rfl⟩
      show k + 1 + ci = k + 1 + ci
      rfl
    · rw [if_neg hstop]
      have hne : ¬(te = nT) := fun h => hstop (Or.inr h)
      have hcilt : ci < cand.length := by
        by_contra h
        rw [hte, if_neg h] at hne
        exact hne rfl
      obtain ⟨ha1, ha2, ha3, ha4, ha5, ha6, ha7, ha8⟩ := ih (ci + 1)
        (if ci + 1 < cand.length then cand.getD (ci + 1) 0 else nT) (k + 1)
        (by omega) rfl (fun j hj hjl => hgt j (by omega) hjl)
      exact ⟨by omega, ha2, by omega, ha4, ha5, ha6, ha7, ha8⟩

/-- The SOC value `soc[current]` read at the top of a cycle iteration. -/
def stepSoc0 (st : SimState) : ℚ := st.buf.soc.getD st.current 0

/-- The initial tentative cycle end of an iteration. -/
def stepTe0 (sr : Series) (cfg : Config) (st : SimState) : ℕ :=
  if st.cand_idx < (candidates sr cfg).length
    then (candidates sr cfg).getD st.cand_idx 0 else nTotal sr

/-- The extension-loop result of an iteration. -/
def stepExt (lp : LPProblem → Option (List ℚ)) (sr : Series) (cfg : Config)
    (st : SimState) : ExtResult :=
  extendLoop lp sr cfg (candidates sr cfg) (nTotal sr) st.current (stepSoc0 st)
    maxExtendSteps st.cand_idx (stepTe0 sr cfg st) 0

/-- The buffers after committing the accepted window. -/
def stepBuf (lp : LPProblem → Option (List ℚ)) (sr : Series) (cfg : Config)
    (st : SimState) : Buffers :=
  applyGo sr cfg st.current (stepExt lp sr cfg st).ch (stepExt lp sr cfg st).dis
    ((stepExt lp sr cfg st).t_end - st.current) 0 (stepSoc0 st) st.buf

/-- The ghost cycle trace after the iteration. -/
def stepCycles (lp : LPProblem → Option (List ℚ)) (sr : Series) (cfg : Config)
    (st : SimState) : List Cycle :=
  st.cycles ++ [⟨st.current, (stepExt lp sr cfg st).t_end, stepSoc0 st,
    (stepExt lp sr cfg st).socEnd⟩]

/-- The ghost solver-call counter after the iteration. -/
def stepNs (lp : LPProblem → Option (List ℚ)) (sr : Series) (cfg : Config)
    (st : SimState) : ℕ :=
  st.nsolves + (stepExt lp sr cfg st).solves

/-- The candidate pointer after being moved past candidates `< t_end`. -/
def stepCi2 (lp : LPProblem → Option (List ℚ)) (sr : Series) (cfg : Config)
    (st : SimState) : ℕ :=
  advanceIdx (candidates sr cfg) (stepExt lp sr cfg st).t_end
    (stepExt lp sr cfg st).cand_idx

/-- The next-cycle scan result of the iteration. -/
def stepScan (lp : LPProblem → Option (List ℚ)) (sr : Series) (cfg : Config)
    (st : SimState) : Option (ℕ × ℕ) :=
  scanNext (candidates sr cfg) (stepBuf lp sr cfg st).soc (nTotal sr)
    (cfg.soc_max - cfg.soc_full_epsilon) (stepCi2 lp sr cfg st)

theorem simStep_eq (lp : LPProblem → Option (List ℚ)) (sr : Series) (cfg : Config)
    (st : SimState) :
    simStep lp sr cfg (candidates sr cfg) (nTotal sr) st =
      match stepScan lp sr cfg st with
      | some pr => Sum.inl ⟨pr.1, pr.2, stepBuf lp sr cfg st, stepCycles lp sr cfg st,
          stepNs lp sr cfg st⟩
      | none => Sum.inr ⟨nTotal sr, stepCi2 lp sr cfg st
          , passiveGo sr (nTotal sr - (stepExt lp sr cfg st).t_end)
              (stepExt lp sr cfg st).t_end (stepBuf lp sr cfg st)
          , stepCycles lp sr cfg st, stepNs lp sr cfg st⟩ := rfl

/-- The loop invariant of the cycle loop. -/
structure SimInv (sr : Series) (cfg : Config) (st : SimState) : Prop where
  ci_le : st.cand_idx ≤ (candidates sr cfg).length
  ci_gt : st.cand_idx < (candidates sr cfg).length →
    st.current < (candidates sr cfg).getD st.cand_idx 0
  buflen : BufLen (nTotal sr) st.buf
  soc_zero : ∀ m, st.current < m → st.buf.soc.getD m 0 = 0

theorem SimInv.ci_gt_all {sr : Series} {cfg : Config} {st : SimState}
    (inv : SimInv sr cfg st) :
    ∀ j, st.cand_idx ≤ j → j < (candidates sr cfg).length →
      st.current < (candidates sr cfg).getD j 0 := by
  intro j hj hjl
  rcases Nat.eq_or_lt_of_le hj with h | h
  · rw [← h]; exact inv.ci_gt (by omega)
  · exact lt_trans (inv.ci_gt (by omega)) (candidates_getD_lt_getD h hjl)

/-- The `stepExt` facts, packaged for the instantiated call. -/
theorem stepExt_spec (lp : LPProblem → Option (List ℚ)) (sr : Series) (cfg : Config)
    (st : SimState) (h : st.current < nTotal sr) (inv : SimInv sr cfg st) :
    st.cand_idx ≤ (stepExt lp sr cfg st).cand_idx ∧
      (stepExt lp sr cfg st).cand_idx ≤ (candidates sr cfg).length ∧
      (stepExt lp sr cfg st).solves + st.cand_idx
        = 1 + (stepExt lp sr cfg st).cand_idx ∧
      (stepExt lp sr cfg st).t_end
        = (if (stepExt lp sr cfg st).cand_idx < (candidates sr cfg).length
            then (candidates sr cfg).getD (stepExt lp sr cfg st).cand_idx 0
            else nTotal sr) ∧
      st.current < (stepExt lp sr cfg st).t_end ∧
      (stepExt lp sr cfg st).t_end ≤ nTotal sr ∧
      ((stepExt lp sr cfg st).ch, (stepExt lp sr cfg st).dis)
        = solve_lp lp sr cfg st.current (stepExt lp sr cfg st).t_end (stepSoc0 st) ∧
      (stepExt lp sr cfg st).socEnd
        = socAfter cfg (stepSoc0 st) (stepExt lp sr cfg st).ch
            (stepExt lp sr cfg st).dis ((stepExt lp sr cfg st).t_end - st.current) := by
  obtain ⟨h1, h2, h3, h4, h5, h6, h7, h8⟩ :=
    extendLoop_spec lp sr cfg (candidates sr cfg) (nTotal sr) st.current
      (stepSoc0 st) h (fun j hj => candidates_getD_lt hj) maxExtendSteps st.cand_idx
      (stepTe0 sr cfg st) 0 inv.ci_le rfl inv.ci_gt_all
  simp only [stepExt]
  exact ⟨h1, h2, by omega, h4, h5, h6, h7, h8⟩

/-- Decomposition of a "continue" iteration: the next state is built from the
step pieces, the scan found candidate `jj`, and the new `current` lies at or
beyond the accepted window end with headroom recorded in the buffers. -/
theorem simStep_inl_spec (lp : LPProblem → Option (List ℚ)) (sr : Series)
    (cfg : Config) (st st1 : SimState) (h : st.current < nTotal sr)
    (inv : SimInv sr cfg st)
    (hstep : simStep lp sr cfg (candidates sr cfg) (nTotal sr) st = Sum.inl st1) :
    ∃ jj,
      st1.current = (candidates sr cfg).getD jj 0 ∧
      st1.cand_idx = jj + 1 ∧
      st1.buf = stepBuf lp sr cfg st ∧
      st1.cycles = stepCycles lp sr cfg st ∧
      st1.nsolves = stepNs lp sr cfg st ∧
      (stepExt lp sr cfg st).cand_idx ≤ stepCi2 lp sr cfg st ∧
      stepCi2 lp sr cfg st ≤ jj ∧
      jj < (candidates sr cfg).length ∧
      (stepExt lp sr cfg st).t_end ≤ st1.current ∧
      st1.current < nTotal sr ∧
      (stepBuf lp sr cfg st).soc.getD st1.current 0
        < cfg.soc_max - cfg.soc_full_epsilon := by
  rw [simStep_eq] at hstep
  cases hscan : stepScan lp sr cfg st with
  | none => rw [hscan] at hstep; cases hstep
  | some pr =>
    rw [hscan] at hstep
    injection hstep with hstep
    obtain ⟨jj, hj1, hj2, hj3, hj4, hj5, hj6⟩ := scanNext_some hscan
    have hbl := (advanceIdx_spec (candidates sr cfg) (stepExt lp sr cfg st).t_end
      (stepExt lp sr cfg st).cand_idx)
    have hci2eq : stepCi2 lp sr cfg st
        = advanceIdx (candidates sr cfg) (stepExt lp sr cfg st).t_end
            (stepExt lp sr cfg st).cand_idx := rfl
    rw [← hci2eq] at hbl
    have hci2jj : stepCi2 lp sr cfg st ≤ jj := hj1
    have hte_ci2 : (stepExt lp sr cfg st).t_end
        ≤ (candidates sr cfg).getD (stepCi2 lp sr cfg st) 0 :=
      hbl.2.1 (by omega)
    have hte_jj : (stepExt lp sr cfg st).t_end ≤ (candidates sr cfg).getD jj 0 := by
      rcases Nat.eq_or_lt_of_le hci2jj with hq | hq
      · rw [← hq]; exact hte_ci2
      · exact le_of_lt (lt_of_le_of_lt hte_ci2 (candidates_getD_lt_getD hq hj2))
    subst hstep
    exact ⟨jj, hj4, hj3, rfl, rfl, rfl, hbl.1, hci2jj, hj2, hj4 ▸ hte_jj, hj4 ▸ hj5,
      hj4 ▸ hj6⟩

/-- Decomposition of a final iteration: the tail is filled passively from the
accepted window end, and the loop returns. -/
theorem simStep_inr_spec (lp : LPProblem → Option (List ℚ)) (sr : Series)
    (cfg : Config) (st st1 : SimState)
    (hstep : simStep lp sr cfg (candidates sr cfg) (nTotal sr) st = Sum.inr st1) :
    st1.current = nTotal sr ∧
      st1.cand_idx = stepCi2 lp sr cfg st ∧
      st1.buf = passiveGo sr (nTotal sr - (stepExt lp sr cfg st).t_end)
        (stepExt lp sr cfg st).t_end (stepBuf lp sr cfg st) ∧
      st1.cycles = stepCycles lp sr cfg st ∧
      st1.nsolves = stepNs lp sr cfg st := by
  rw [simStep_eq] at hstep
  cases hscan : stepScan lp sr cfg st with
  | none =>
    rw [hscan] at hstep
    injection hstep with hstep
    subst hstep
    exact ⟨rfl, rfl, rfl, rfl, rfl⟩
  | some pr => rw [hscan] at hstep; cases hstep

/-- The invariant survives a "continue" iteration, and the candidate pointer
strictly advances while the solver-call counter grows by at most the pointer
advance. -/
theorem simStep_inl_inv (lp : LPProblem → Option (List ℚ)) (sr : Series)
    (cfg : Config) (st st1 : SimState) (h : st.current < nTotal sr)
    (inv : SimInv sr cfg st)
    (hstep : simStep lp sr cfg (candidates sr cfg) (nTotal sr) st = Sum.inl st1) :
    SimInv sr cfg st1 ∧ st.cand_idx < st1.cand_idx ∧
      st1.cand_idx ≤ (candidates sr cfg).length ∧
      st1.nsolves + st.cand_idx ≤ st.nsolves + st1.cand_idx ∧
      st1.current < nTotal sr := by
  obtain ⟨jj, hcur, hci, hbuf, hcyc, hns, he1, he2, he3, he4, he5, he6⟩ :=
    simStep_inl_spec lp sr cfg st st1 h inv hstep
  obtain ⟨x1, x2, x3, x4, x5, x6, x7, x8⟩ := stepExt_spec lp sr cfg st h inv
  have hblen : BufLen (nTotal sr) st1.buf := by
    rw [hbuf]
    exact applyGo_buflen sr cfg st.current _ _ _ _ _ _ inv.buflen
  refine ⟨⟨by omega, ?_, hblen, ?_⟩, by omega, by omega, ?_, he5⟩
  · intro hlt
    rw [hcur, hci]
    exact candidates_getD_lt_getD (by omega) (by omega)
  · intro m hm
    rw [hbuf, stepBuf]
    rw [applyGo_frame_soc sr cfg st.current _ _ _ _ _ _ m (by omega)]
    exact inv.soc_zero m (by omega)
  · rw [hns, stepNs]
    omega

/-- Generic induction principle for the cycle loop: any property preserved by
both kinds of iteration (under the invariant) holds at the final state. -/
theorem simLoop_reaches (lp : LPProblem → Option (List ℚ)) (sr : Series)
    (cfg : Config) (Q : SimState → Prop)
    (hinl : ∀ st st1, st.current < nTotal sr → SimInv sr cfg st → Q st →
      simStep lp sr cfg (candidates sr cfg) (nTotal sr) st = Sum.inl st1 → Q st1)
    (hinr : ∀ st st1, st.current < nTotal sr → SimInv sr cfg st → Q st →
      simStep lp sr cfg (candidates sr cfg) (nTotal sr) st = Sum.inr st1 → Q st1) :
    ∀ fuel st st',
      simLoop lp sr cfg (candidates sr cfg) (nTotal sr) fuel st = some st' →
      SimInv sr cfg st → Q st → Q st' := by
  intro fuel
  induction fuel with
  | zero => intro st st' hrun; cases hrun
  | succ fuel ih =>
    intro st st' hrun inv hq
    simp only [simLoop] at hrun
    by_cases hc : st.current < nTotal sr
    · rw [if_pos hc] at hrun
      cases hstep : simStep lp sr cfg (candidates sr cfg) (nTotal sr) st with
      | inl st1 =>
        rw [hstep] at hrun
        exact ih st1 st' hrun
          (simStep_inl_inv lp sr cfg st st1 hc inv hstep).1
          (hinl st st1 hc inv hq hstep)
      | inr st1 =>
        rw [hstep] at hrun
        injection hrun with hrun
        rw [← hrun]
        exact hinr st st1 hc inv hq hstep
    · rw [if_neg hc] at hrun
      injection hrun with hrun
      rw [← hrun]
      exact hq

/-- Termination with an explicit solver-call bound: with fuel covering the
remaining candidates the loop returns, and the total number of `solve_lp`
calls is at most `1 +` the candidate-pointer distance travelled. -/
theorem simLoop_term_count (lp : LPProblem → Option (List ℚ)) (sr : Series)
    (cfg : Config) :
    ∀ fuel st, SimInv sr cfg st →
      (candidates sr cfg).length + 1 ≤ fuel + st.cand_idx →
      ∃ st', simLoop lp sr cfg (candidates sr cfg) (nTotal sr) fuel st = some st' ∧
        st'.nsolves + st.cand_idx ≤ st.nsolves + (candidates sr cfg).length + 1 := by
  intro fuel
  induction fuel with
  | zero =>
    intro st inv hfuel
    exact absurd inv.ci_le (by omega)
  | succ fuel ih =>
    intro st inv hfuel
    simp only [simLoop]
    by_cases hc : st.current < nTotal sr
    · rw [if_pos hc]
      cases hstep : simStep lp sr cfg (candidates sr cfg) (nTotal sr) st with
      | inl st1 =>
        obtain ⟨inv1, hlt1, hle1, hns1, _⟩ :=
          simStep_inl_inv lp sr cfg st st1 hc inv hstep
        obtain ⟨st', hrun, hcount⟩ := ih st1 inv1 (by omega)
        exact ⟨st', hrun, by omega⟩
      | inr st1 =>
        obtain ⟨_, _, _, _, hns⟩ := simStep_inr_spec lp sr cfg st st1 hstep
        obtain ⟨x1, x2, x3, _⟩ := stepExt_spec lp sr cfg st hc inv
        have hstepns : stepNs lp sr cfg st
            = st.nsolves + (stepExt lp sr cfg st).solves := rfl
        exact ⟨st1, rfl, by omega⟩
    · rw [if_neg hc]
      have := inv.ci_le
      exact ⟨st, rfl, by omega⟩

theorem getD_replicate_self {α : Type} {n i : ℕ} {a : α} :
    (List.replicate n a).getD i a = a := by
  by_cases h : i < n
  · exact getD_replicate_lt h
  · rw [List.getD_eq_default]
    rw [List.length_replicate]
    omega

/-- The start pointer actually used (modelo.py lines 153-159). -/
def runSp (sr : Series) (cfg : Config) : ℕ :=
  let sp0 := startPtr (candidates sr cfg) (simInit cfg (nTotal sr)).soc
    (cfg.soc_max - cfg.soc_full_epsilon)
  if (candidates sr cfg).length ≤ sp0 then 0 else sp0

/-- `t_start`: the first cycle start. -/
def runStart (sr : Series) (cfg : Config) : ℕ :=
  (candidates sr cfg).getD (runSp sr cfg) 0

/-- The loop state entering the cycle loop, after the pre-cycle passive fill. -/
def runInitState (sr : Series) (cfg : Config) : SimState :=
  { current := runStart sr cfg, cand_idx := runSp sr cfg + 1
    buf := passiveGo sr (runStart sr cfg) 0 (simInit cfg (nTotal sr))
    cycles := [], nsolves := 0 }

theorem simRun_eq (lp : LPProblem → Option (List ℚ)) (sr : Series) (cfg : Config) :
    simRun lp sr cfg
      = simLoop lp sr cfg (candidates sr cfg) (nTotal sr)
          ((candidates sr cfg).length + 1) (runInitState sr cfg) := rfl

theorem simInit_buflen (cfg : Config) (nT : ℕ) : BufLen nT (simInit cfg nT) := by
  simp [BufLen, simInit, List.length_set, List.length_replicate]

theorem simInit_soc_getD (cfg : Config) (nT : ℕ) {m : ℕ} (h : 0 < m) :
    (simInit cfg nT).soc.getD m 0 = 0 := by
  show ((List.replicate (nT + 1) (0 : ℚ)).set 0 cfg.soc_ini).getD m 0 = 0
  rw [getD_set_ne (by omega), getD_replicate_self]

theorem runSp_lt (sr : Series) (cfg : Config) (h : candidates sr cfg ≠ []) :
    runSp sr cfg < (candidates sr cfg).length := by
  have hlen : 0 < (candidates sr cfg).length := List.length_pos.mpr h
  unfold runSp
  by_cases hc : (candidates sr cfg).length
      ≤ startPtr (candidates sr cfg) (simInit cfg (nTotal sr)).soc
          (cfg.soc_max - cfg.soc_full_epsilon)
  · rw [if_pos hc]; exact hlen
  · rw [if_neg hc]; omega

theorem runInit_inv (sr : Series) (cfg : Config) (h : candidates sr cfg ≠ []) :
    SimInv sr cfg (runInitState sr cfg) ∧ (runInitState sr cfg).current < nTotal sr := by
  have hsp := runSp_lt sr cfg h
  have hcur : runStart sr cfg < nTotal sr := candidates_getD_lt hsp
  refine ⟨⟨?_, ?_, ?_, ?_⟩, hcur⟩
  · show runSp sr cfg + 1 ≤ _
    omega
  · intro hlt
    have hlt' : runSp sr cfg + 1 < (candidates sr cfg).length := hlt
    show runStart sr cfg < (candidates sr cfg).getD (runSp sr cfg + 1) 0
    exact candidates_getD_lt_getD (by omega) hlt'
  · exact passiveGo_buflen sr _ _ _ (simInit_buflen cfg (nTotal sr))
  · intro m hm
    have hm' : runStart sr cfg < m := hm
    show (passiveGo sr (runStart sr cfg) 0 (simInit cfg (nTotal sr))).soc.getD m 0 = 0
    rw [passiveGo_frame_soc sr _ 0 _ m (by omega)]
    exact simInit_soc_getD cfg (nTotal sr) (by omega)

theorem length_mul_le_bound {a b : ℕ} (h : 1 ≤ b) : a ≤ a * b :=
  Nat.le_mul_of_pos_right a h

/-- C5 (amended): for every finite input series, every LP oracle, and every
configuration with nonzero battery capacity and nonzero discharge efficiency,
`simular` terminates with a result, and the total number of `solve_lp`
invocations is bounded by `(number of candidates) * (max_extend_steps + 1)`.
(The zero-capacity case of the original claim is refuted separately: there the
code raises `ZeroDivisionError`.) -/
theorem C5_amended_theorem (lp : LPProblem → Option (List ℚ)) (sr : Series)
    (cfg : Config) (hcap : cfg.battery_mwh ≠ 0) (heta : cfg.eta_dis ≠ 0) :
    ∃ r, simularFull lp sr cfg = Except.ok r ∧
      r.nsolves ≤ (candidates sr cfg).length * (maxExtendSteps + 1) := by
  unfold simularFull
  by_cases hzero : (candidates sr cfg).length = 0
  · rw [if_pos hzero]
    exact ⟨passiveResult sr cfg, rfl, by simp [passiveResult]⟩
  · rw [if_neg hzero, if_neg (by tauto)]
    have hne : candidates sr cfg ≠ [] := by
      intro hnil
      rw [hnil] at hzero
      exact hzero rfl
    obtain ⟨inv, hcur⟩ := runInit_inv sr cfg hne
    obtain ⟨st', hrun, hcount⟩ :=
      simLoop_term_count lp sr cfg ((candidates sr cfg).length + 1)
        (runInitState sr cfg) inv (by omega)
    have hsim : simRun lp sr cfg = some st' := by
      rw [simRun_eq]
      exact hrun
    rw [hsim]
    refine ⟨_, rfl, ?_⟩
    show st'.nsolves ≤ _
    have hinit_ci : (runInitState sr cfg).cand_idx = runSp sr cfg + 1 := rfl
    have hinit_ns : (runInitState sr cfg).nsolves = 0 := rfl
    have hb : (candidates sr cfg).length ≤ (candidates sr cfg).length * (maxExtendSteps + 1) :=
      length_mul_le_bound (by simp [maxExtendSteps])
    omega

/-- C9: for every window `[t0, t1)` with positive length and every starting
SOC, if the LP solver reports failure on the window's LP, `solve_lp` returns
two all-zero vectors of the window length — the fail-soft fallback equivalent
to not using the battery in that window. -/
theorem C9_theorem (lp : LPProblem → Option (List ℚ)) (sr : Series) (cfg : Config)
    (t0 t1 : ℕ) (soc0 : ℚ) (h : t0 < t1)
    (hfail : lp (mkLP sr cfg t0 t1 soc0) = none) :
    solve_lp lp sr cfg t0 t1 soc0
        = (List.replicate (t1 - t0) 0, List.replicate (t1 - t0) 0) ∧
      (solve_lp lp sr cfg t0 t1 soc0).1.length = t1 - t0 ∧
      (solve_lp lp sr cfg t0 t1 soc0).2.length = t1 - t0 := by
  have heq := solve_lp_fail sr cfg soc0 h hfail
  rw [heq]
  simp

/-- C8: the candidate list is exactly the ordered duplicate-free list of
indices `i` with `excess[i] > threshold` and (`i = 0` or
`excess[i-1] ≤ threshold`) — the rising edges of surplus blocks. -/
theorem C8_theorem (sr : Series) (cfg : Config) :
    List.Pairwise (· < ·) (candidates sr cfg) ∧
      ∀ i, (i ∈ candidates sr cfg ↔
        i < nTotal sr ∧ cfg.excess_threshold_mwh < excessAt sr i ∧
          (i = 0 ∨ excessAt sr (i - 1) ≤ cfg.excess_threshold_mwh)) := by
  refine ⟨candidates_sorted sr cfg, ?_⟩
  intro i
  rw [mem_candidates]
  constructor
  · rintro ⟨h1, h2, h3⟩
    refine ⟨h1, by simpa [hasExcess] using h2, ?_⟩
    cases i with
    | zero => exact Or.inl rfl
    | succ j =>
      right
      have : hasExcess sr cfg j = false := h3
      simpa [hasExcess] using this
  · rintro ⟨h1, h2, h3⟩
    refine ⟨h1, by simpa [hasExcess] using h2, ?_⟩
    cases i with
    | zero => rfl
    | succ j =>
      show hasExcess sr cfg j = false
      rcases h3 with h3 | h3
      · cases h3
      · simpa [hasExcess] using h3

theorem candidates_nil_of_no_excess {sr : Series} {cfg : Config}
    (h : ∀ t, t < nTotal sr → excessAt sr t ≤ cfg.excess_threshold_mwh) :
    candidates sr cfg = [] := by
  apply List.filter_eq_nil.mpr
  intro a ha
  have halt : a < nTotal sr := List.mem_range.mp ha
  simp only [Bool.and_eq_true, Bool.not_eq_true', not_and]
  intro hex
  exact absurd (by simpa [hasExcess] using hex) (not_lt.mpr (h a halt))

theorem simularE_nil (lp : LPProblem → Option (List ℚ)) {sr : Series} {cfg : Config}
    (hnil : candidates sr cfg = []) :
    simularE lp sr cfg = Except.ok (passiveResult sr cfg).out := by
  unfold simularE simularFull
  rw [if_pos (by rw [hnil]; rfl)]
  rfl

theorem passiveResult_facts (sr : Series) (cfg : Config) {t : ℕ} (ht : t < nTotal sr) :
    (passiveResult sr cfg).out.batt_charge.getD t 0 = 0 ∧
      (passiveResult sr cfg).out.batt_discharge.getD t 0 = 0 ∧
      (passiveResult sr cfg).out.grid_import.getD t 0 = deficitAt sr t ∧
      (passiveResult sr cfg).out.curtail.getD t 0 = 0 ∧
      (passiveResult sr cfg).out.soc.getD t 0 = cfg.soc_ini := by
  refine ⟨getD_replicate_lt ht, getD_replicate_lt ht, getD_map_range ht 0,
    getD_replicate_lt ht, getD_replicate_lt ht⟩

/-- C6: when `excess[t] ≤ threshold` at every timestep (so the candidate list
is empty), the output of `simular` has `charge` and `discharge` identically
zero, `grid_import` equal to the deficit series, `curtailment` identically
zero, and `soc` constant at `soc_ini`. -/
theorem C6_theorem (lp : LPProblem → Option (List ℚ)) (sr : Series) (cfg : Config)
    (out : Output)
    (hall : ∀ t, t < nTotal sr → excessAt sr t ≤ cfg.excess_threshold_mwh)
    (hout : simularE lp sr cfg = Except.ok out) :
    ∀ t, t < nTotal sr →
      out.batt_charge.getD t 0 = 0 ∧ out.batt_discharge.getD t 0 = 0 ∧
      out.grid_import.getD t 0 = deficitAt sr t ∧ out.curtail.getD t 0 = 0 ∧
      out.soc.getD t 0 = cfg.soc_ini := by
  intro t ht
  have hnil := candidates_nil_of_no_excess hall
  rw [simularE_nil lp hnil] at hout
  injection hout with hout
  rw [← hout]
  exact passiveResult_facts sr cfg ht

/-- C7 (amended): when the candidate list is empty the whole horizon is a
passive pass-through with the battery untouched, `grid_import = deficit` and
`soc` constant at `soc_ini`; but the `curtail` output column is identically
zero — not equal to the excess series at timesteps with
`0 < excess[t] ≤ threshold` (refuted separately). -/
theorem C7_amended_theorem (lp : LPProblem → Option (List ℚ)) (sr : Series)
    (cfg : Config) (out : Output) (hnil : candidates sr cfg = [])
    (hout : simularE lp sr cfg = Except.ok out) :
    ∀ t, t < nTotal sr →
      out.batt_charge.getD t 0 = 0 ∧ out.batt_discharge.getD t 0 = 0 ∧
      out.grid_import.getD t 0 = deficitAt sr t ∧ out.curtail.getD t 0 = 0 ∧
      out.soc.getD t 0 = cfg.soc_ini := by
  intro t ht
  rw [simularE_nil lp hnil] at hout
  injection hout with hout
  rw [← hout]
  exact passiveResult_facts sr cfg ht

/-- Decision bounds on the buffers: every entry of `batt_charge` /
`batt_discharge` lies in `[0, min(excess, pmax)]` / `[0, min(deficit, pmax)]`. -/
def DecBounds (sr : Series) (cfg : Config) (b : Buffers) : Prop :=
  ∀ t, t < nTotal sr →
    0 ≤ b.batt_charge.getD t 0 ∧
    b.batt_charge.getD t 0 ≤ min (excessAt sr t) cfg.battery_mw ∧
    0 ≤ b.batt_discharge.getD t 0 ∧
    b.batt_discharge.getD t 0 ≤ min (deficitAt sr t) cfg.battery_mw

theorem decBounds_zero_entry {sr : Series} {cfg : Config} (hpm : 0 ≤ cfg.battery_mw)
    (t : ℕ) :
    (0 : ℚ) ≤ 0 ∧ (0 : ℚ) ≤ min (excessAt sr t) cfg.battery_mw ∧
      (0 : ℚ) ≤ 0 ∧ (0 : ℚ) ≤ min (deficitAt sr t) cfg.battery_mw :=
  ⟨le_refl _, le_min (excessAt_nonneg sr t) hpm, le_refl _,
    le_min (deficitAt_nonneg sr t) hpm⟩

/-- The committed window keeps the decision bounds, for a sound oracle and a
nonnegative power limit. -/
theorem decBounds_stepBuf (lp : LPProblem → Option (List ℚ)) (sr : Series)
    (cfg : Config) (st : SimState) (h : st.current < nTotal sr)
    (inv : SimInv sr cfg st) (hlp : OracleSound lp) (hpm : 0 ≤ cfg.battery_mw)
    (hq : DecBounds sr cfg st.buf) :
    DecBounds sr cfg (stepBuf lp sr cfg st) := by
  obtain ⟨x1, x2, x3, x4, x5, x6, x7, x8⟩ := stepExt_spec lp sr cfg st h inv
  intro t ht
  by_cases hin : st.current ≤ t ∧ t < (stepExt lp sr cfg st).t_end
  · obtain ⟨hin1, hin2⟩ := hin
    have hj : t - st.current < (stepExt lp sr cfg st).t_end - st.current := by omega
    have hfacts := applyGo_inside sr cfg st.current (stepExt lp sr cfg st).ch
      (stepExt lp sr cfg st).dis ((stepExt lp sr cfg st).t_end - st.current) 0
      (stepSoc0 st) st.buf inv.buflen (by omega) (t - st.current) hj
    have hte : st.current + 0 + (t - st.current) = t := by omega
    rw [hte] at hfacts
    have hchv : (stepExt lp sr cfg st).ch.getD (0 + (t - st.current)) 0
        = (solve_lp lp sr cfg st.current (stepExt lp sr cfg st).t_end (stepSoc0 st)).1.getD
            (0 + (t - st.current)) 0 := by
      rw [← x7]
    have hdisv : (stepExt lp sr cfg st).dis.getD (0 + (t - st.current)) 0
        = (solve_lp lp sr cfg st.current (stepExt lp sr cfg st).t_end (stepSoc0 st)).2.getD
            (0 + (t - st.current)) 0 := by
      rw [← x7]
    have hcases := @solve_lp_cases lp hlp sr cfg st.current
      (stepExt lp sr cfg st).t_end (stepSoc0 st) (0 + (t - st.current)) (by omega)
    rw [stepBuf, hfacts.1, hfacts.2.1]
    rw [hchv, hdisv]
    have harg : st.current + (0 + (t - st.current)) = t := by omega
    rcases hcases with ⟨hz1, hz2⟩ | ⟨hb1, hb2, hb3, hb4⟩
    · rw [hz1, hz2]
      exact decBounds_zero_entry hpm t
    · rw [chUb, harg] at hb2
      rw [disUb, harg] at hb4
      exact ⟨hb1, hb2, hb3, hb4⟩
  · have hout : t < st.current + 0 ∨
        st.current + 0 + ((stepExt lp sr cfg st).t_end - st.current) ≤ t := by omega
    have hfr := applyGo_frame_cols sr cfg st.current (stepExt lp sr cfg st).ch
      (stepExt lp sr cfg st).dis ((stepExt lp sr cfg st).t_end - st.current) 0
      (stepSoc0 st) st.buf t hout
    rw [stepBuf, hfr.1, hfr.2.1]
    exact hq t ht

/-- C4's invariant is preserved by both iteration outcomes. -/
theorem decBounds_step (lp : LPProblem → Option (List ℚ)) (sr : Series)
    (cfg : Config) (hlp : OracleSound lp) (hpm : 0 ≤ cfg.battery_mw) :
    (∀ st st1, st.current < nTotal sr → SimInv sr cfg st →
      DecBounds sr cfg st.buf →
      simStep lp sr cfg (candidates sr cfg) (nTotal sr) st = Sum.inl st1 →
      DecBounds sr cfg st1.buf) ∧
    (∀ st st1, st.current < nTotal sr → SimInv sr cfg st →
      DecBounds sr cfg st.buf →
      simStep lp sr cfg (candidates sr cfg) (nTotal sr) st = Sum.inr st1 →
      DecBounds sr cfg st1.buf) := by
  constructor
  · intro st st1 h inv hq hstep
    obtain ⟨jj, hcur, hci, hbuf, _⟩ := simStep_inl_spec lp sr cfg st st1 h inv hstep
    rw [hbuf]
    exact decBounds_stepBuf lp sr cfg st h inv hlp hpm hq
  · intro st st1 h inv hq hstep
    obtain ⟨_, _, hbuf, _, _⟩ := simStep_inr_spec lp sr cfg st st1 hstep
    rw [hbuf]
    have hstepb := decBounds_stepBuf lp sr cfg st h inv hlp hpm hq
    intro t ht
    by_cases hin : (stepExt lp sr cfg st).t_end ≤ t ∧
        t < (stepExt lp sr cfg st).t_end + (nTotal sr - (stepExt lp sr cfg st).t_end)
    · have hj : t - (stepExt lp sr cfg st).t_end
          < nTotal sr - (stepExt lp sr cfg st).t_end := by omega
      have hbl : BufLen (nTotal sr) (stepBuf lp sr cfg st) :=
        applyGo_buflen sr cfg st.current _ _ _ _ _ _ inv.buflen
      have hfacts := @passiveGo_inside sr (nTotal sr)
        (nTotal sr - (stepExt lp sr cfg st).t_end) (stepExt lp sr cfg st).t_end
        (stepBuf lp sr cfg st) hbl (by omega) (t - (stepExt lp sr cfg st).t_end) hj
      have hte : (stepExt lp sr cfg st).t_end + (t - (stepExt lp sr cfg st).t_end)
          = t := by omega
      rw [hte] at hfacts
      rw [hfacts.1, hfacts.2.1]
      exact decBounds_zero_entry hpm t
    · have hout : t < (stepExt lp sr cfg st).t_end ∨
          (stepExt lp sr cfg st).t_end + (nTotal sr - (stepExt lp sr cfg st).t_end)
            ≤ t := by omega
      have hfr := passiveGo_frame_cols sr (nTotal sr - (stepExt lp sr cfg st).t_end)
        (stepExt lp sr cfg st).t_end (stepBuf lp sr cfg st) t hout
      rw [hfr.1, hfr.2.1]
      exact hstepb t ht

theorem decBounds_init (sr : Series) (cfg : Config) (hpm : 0 ≤ cfg.battery_mw) :
    DecBounds sr cfg (runInitState sr cfg).buf := by
  intro t ht
  have hbe : (runInitState sr cfg).buf
      = passiveGo sr (runStart sr cfg) 0 (simInit cfg (nTotal sr)) := rfl
  rw [hbe]
  by_cases hin : t < runStart sr cfg
  · have hrs : runStart sr cfg ≤ nTotal sr := by
      by_cases hc : runSp sr cfg < (candidates sr cfg).length
      · exact le_of_lt (candidates_getD_lt hc)
      · show (candidates sr cfg).getD (runSp sr cfg) 0 ≤ nTotal sr
        rw [List.getD_eq_default _ _ (by omega)]
        omega
    have hfacts := @passiveGo_inside sr (nTotal sr) (runStart sr cfg) 0
      (simInit cfg (nTotal sr)) (simInit_buflen cfg (nTotal sr)) (by omega) t hin
    rw [Nat.zero_add] at hfacts
    rw [hfacts.1, hfacts.2.1]
    exact decBounds_zero_entry hpm t
  · have hfr := passiveGo_frame_cols sr (runStart sr cfg) 0 (simInit cfg (nTotal sr)) t
      (by omega)
    rw [hfr.1, hfr.2.1]
    have hch : (simInit cfg (nTotal sr)).batt_charge.getD t 0 = 0 := getD_replicate_self
    have hdis : (simInit cfg (nTotal sr)).batt_discharge.getD t 0 = 0 := getD_replicate_self
    rw [hch, hdis]
    exact decBounds_zero_entry hpm t

/-- C4: for every input series, sound LP oracle, and configuration with a
nonnegative power limit, every timestep of the output of `simular` satisfies
`0 ≤ charge[t] ≤ min(excess[t], power_limit)` and
`0 ≤ discharge[t] ≤ min(deficit[t], power_limit)`. -/
theorem C4_theorem (lp : LPProblem → Option (List ℚ)) (sr : Series) (cfg : Config)
    (out : Output) (hlp : OracleSound lp) (hpm : 0 ≤ cfg.battery_mw)
    (hout : simularE lp sr cfg = Except.ok out) :
    ∀ t, t < nTotal sr →
      0 ≤ out.batt_charge.getD t 0 ∧
      out.batt_charge.getD t 0 ≤ min (excessAt sr t) cfg.battery_mw ∧
      0 ≤ out.batt_discharge.getD t 0 ∧
      out.batt_discharge.getD t 0 ≤ min (deficitAt sr t) cfg.battery_mw := by
  intro t ht
  unfold simularE simularFull at hout
  by_cases hzero : (candidates sr cfg).length = 0
  · rw [if_pos hzero] at hout
    injection hout with hout
    rw [← hout]
    have := passiveResult_facts sr cfg ht
    show 0 ≤ (passiveResult sr cfg).out.batt_charge.getD t 0 ∧ _
    rw [this.1, this.2.1]
    exact decBounds_zero_entry hpm t
  · rw [if_neg hzero] at hout
    by_cases hz : cfg.battery_mwh = 0 ∨ cfg.eta_dis = 0
    · rw [if_pos hz] at hout
      cases hout
    · rw [if_neg hz] at hout
      cases hrun : simRun lp sr cfg with
      | none => rw [hrun] at hout; cases hout
      | some st' =>
        rw [hrun] at hout
        injection hout with hout
        have hne : candidates sr cfg ≠ [] := by
          intro hnil; rw [hnil] at hzero; exact hzero rfl
        obtain ⟨inv, hcur⟩ := runInit_inv sr cfg hne
        have hfinal : DecBounds sr cfg st'.buf :=
          simLoop_reaches lp sr cfg (fun st => DecBounds sr cfg st.buf)
            (fun st st1 a b c d => (decBounds_step lp sr cfg hlp hpm).1 st st1 a b c d)
            (fun st st1 a b c d => (decBounds_step lp sr cfg hlp hpm).2 st st1 a b c d)
            ((candidates sr cfg).length + 1) (runInitState sr cfg) st'
            (by rw [← simRun_eq]; exact hrun) inv
            (decBounds_init sr cfg hpm)
        rw [← hout]
        exact hfinal t ht

/-- The output identities on every written timestep: `grid_import = deficit -
discharge ≥ 0` and `curtail = excess - charge ≥ 0`. -/
def OutEq (sr : Series) (b : Buffers) : Prop :=
  ∀ t, b.written.getD t false = true →
    b.grid_import.getD t 0 = deficitAt sr t - b.batt_discharge.getD t 0 ∧
    0 ≤ b.grid_import.getD t 0 ∧
    b.curtail.getD t 0 = excessAt sr t - b.batt_charge.getD t 0 ∧
    0 ≤ b.curtail.getD t 0

theorem outEq_passive_entry (sr : Series) (t : ℕ) :
    deficitAt sr t = deficitAt sr t - 0 ∧ 0 ≤ deficitAt sr t ∧
      excessAt sr t = excessAt sr t - 0 ∧ 0 ≤ excessAt sr t :=
  ⟨by ring, deficitAt_nonneg sr t, by ring, excessAt_nonneg sr t⟩

theorem outEq_stepBuf (lp : LPProblem → Option (List ℚ)) (sr : Series)
    (cfg : Config) (st : SimState) (h : st.current < nTotal sr)
    (inv : SimInv sr cfg st) (hlp : OracleSound lp) (hq : OutEq sr st.buf) :
    OutEq sr (stepBuf lp sr cfg st) := by
  obtain ⟨x1, x2, x3, x4, x5, x6, x7, x8⟩ := stepExt_spec lp sr cfg st h inv
  intro t hw
  by_cases hin : st.current ≤ t ∧ t < (stepExt lp sr cfg st).t_end
  · obtain ⟨hin1, hin2⟩ := hin
    have hj : t - st.current < (stepExt lp sr cfg st).t_end - st.current := by omega
    have hfacts := applyGo_inside sr cfg st.current (stepExt lp sr cfg st).ch
      (stepExt lp sr cfg st).dis ((stepExt lp sr cfg st).t_end - st.current) 0
      (stepSoc0 st) st.buf inv.buflen (by omega) (t - st.current) hj
    have hte : st.current + 0 + (t - st.current) = t := by omega
    rw [hte] at hfacts
    have hchv : (stepExt lp sr cfg st).ch.getD (0 + (t - st.current)) 0
        = (solve_lp lp sr cfg st.current (stepExt lp sr cfg st).t_end (stepSoc0 st)).1.getD
            (0 + (t - st.current)) 0 := by rw [← x7]
    have hdisv : (stepExt lp sr cfg st).dis.getD (0 + (t - st.current)) 0
        = (solve_lp lp sr cfg st.current (stepExt lp sr cfg st).t_end (stepSoc0 st)).2.getD
            (0 + (t - st.current)) 0 := by rw [← x7]
    have hcases := @solve_lp_cases lp hlp sr cfg st.current
      (stepExt lp sr cfg st).t_end (stepSoc0 st) (0 + (t - st.current)) (by omega)
    have harg : st.current + (0 + (t - st.current)) = t := by omega
    rw [stepBuf, hfacts.2.1, hfacts.2.2.1, hfacts.2.2.2.1, hfacts.1]
    rw [hchv, hdisv]
    rcases hcases with ⟨hz1, hz2⟩ | ⟨hb1, hb2, hb3, hb4⟩
    · rw [hz1, hz2]
      have hd := deficitAt_nonneg sr t
      have he := excessAt_nonneg sr t
      refine ⟨rfl, by linarith, rfl, by linarith⟩
    · rw [chUb, harg] at hb2
      rw [disUb, harg] at hb4
      refine ⟨rfl, ?_, rfl, ?_⟩
      · have : (solve_lp lp sr cfg st.current (stepExt lp sr cfg st).t_end
            (stepSoc0 st)).2.getD (0 + (t - st.current)) 0 ≤ deficitAt sr t :=
          le_trans hb4 (min_le_left _ _)
        linarith
      · have : (solve_lp lp sr cfg st.current (stepExt lp sr cfg st).t_end
            (stepSoc0 st)).1.getD (0 + (t - st.current)) 0 ≤ excessAt sr t :=
          le_trans hb2 (min_le_left _ _)
        linarith
  · have hout : t < st.current + 0 ∨
        st.current + 0 + ((stepExt lp sr cfg st).t_end - st.current) ≤ t := by omega
    have hfr := applyGo_frame_cols sr cfg st.current (stepExt lp sr cfg st).ch
      (stepExt lp sr cfg st).dis ((stepExt lp sr cfg st).t_end - st.current) 0
      (stepSoc0 st) st.buf t hout
    rw [stepBuf] at hw ⊢
    rw [hfr.1, hfr.2.1, hfr.2.2.1, hfr.2.2.2.1]
    rw [hfr.2.2.2.2] at hw
    exact hq t hw

theorem outEq_step (lp : LPProblem → Option (List ℚ)) (sr : Series)
    (cfg : Config) (hlp : OracleSound lp) :
    (∀ st st1, st.current < nTotal sr → SimInv sr cfg st → OutEq sr st.buf →
      simStep lp sr cfg (candidates sr cfg) (nTotal sr) st = Sum.inl st1 →
      OutEq sr st1.buf) ∧
    (∀ st st1, st.current < nTotal sr → SimInv sr cfg st → OutEq sr st.buf →
      simStep lp sr cfg (candidates sr cfg) (nTotal sr) st = Sum.inr st1 →
      OutEq sr st1.buf) := by
  constructor
  · intro st st1 h inv hq hstep
    obtain ⟨jj, hcur, hci, hbuf, _⟩ := simStep_inl_spec lp sr cfg st st1 h inv hstep
    rw [hbuf]
    exact outEq_stepBuf lp sr cfg st h inv hlp hq
  · intro st st1 h inv hq hstep
    obtain ⟨_, _, hbuf, _, _⟩ := simStep_inr_spec lp sr cfg st st1 hstep
    rw [hbuf]
    have hstepb := outEq_stepBuf lp sr cfg st h inv hlp hq
    intro t hw
    by_cases hin : (stepExt lp sr cfg st).t_end ≤ t ∧
        t < (stepExt lp sr cfg st).t_end + (nTotal sr - (stepExt lp sr cfg st).t_end)
    · have hj : t - (stepExt lp sr cfg st).t_end
          < nTotal sr - (stepExt lp sr cfg st).t_end := by omega
      have hbl : BufLen (nTotal sr) (stepBuf lp sr cfg st) :=
        applyGo_buflen sr cfg st.current _ _ _ _ _ _ inv.buflen
      have hfacts := @passiveGo_inside sr (nTotal sr)
        (nTotal sr - (stepExt lp sr cfg st).t_end) (stepExt lp sr cfg st).t_end
        (stepBuf lp sr cfg st) hbl (by omega) (t - (stepExt lp sr cfg st).t_end) hj
      have hte : (stepExt lp sr cfg st).t_end + (t - (stepExt lp sr cfg st).t_end)
          = t := by omega
      rw [hte] at hfacts
      rw [hfacts.2.2.1, hfacts.2.2.2.1, hfacts.1, hfacts.2.1]
      exact outEq_passive_entry sr t
    · have hout : t < (stepExt lp sr cfg st).t_end ∨
          (stepExt lp sr cfg st).t_end + (nTotal sr - (stepExt lp sr cfg st).t_end)
            ≤ t := by omega
      have hfr := passiveGo_frame_cols sr (nTotal sr - (stepExt lp sr cfg st).t_end)
        (stepExt lp sr cfg st).t_end (stepBuf lp sr cfg st) t hout
      rw [hfr.1, hfr.2.1, hfr.2.2.1, hfr.2.2.2.1]
      rw [hfr.2.2.2.2] at hw
      exact hstepb t hw

theorem outEq_init (sr : Series) (cfg : Config) :
    OutEq sr (runInitState sr cfg).buf := by
  intro t hw
  have hbe : (runInitState sr cfg).buf
      = passiveGo sr (runStart sr cfg) 0 (simInit cfg (nTotal sr)) := rfl
  rw [hbe] at hw ⊢
  by_cases hin : t < runStart sr cfg
  · have hrs : runStart sr cfg ≤ nTotal sr := by
      by_cases hc : runSp sr cfg < (candidates sr cfg).length
      · exact le_of_lt (candidates_getD_lt hc)
      · show (candidates sr cfg).getD (runSp sr cfg) 0 ≤ nTotal sr
        rw [List.getD_eq_default _ _ (by omega)]
        omega
    have hfacts := @passiveGo_inside sr (nTotal sr) (runStart sr cfg) 0
      (simInit cfg (nTotal sr)) (simInit_buflen cfg (nTotal sr)) (by omega) t hin
    rw [Nat.zero_add] at hfacts
    rw [hfacts.2.2.1, hfacts.2.2.2.1, hfacts.1, hfacts.2.1]
    exact outEq_passive_entry sr t
  · have hfr := passiveGo_frame_cols sr (runStart sr cfg) 0 (simInit cfg (nTotal sr)) t
      (by omega)
    rw [hfr.2.2.2.2] at hw
    have : (simInit cfg (nTotal sr)).written.getD t false = false := getD_replicate_self
    rw [this] at hw
    cases hw

/-- C1 (amended): for every input series with a nonempty candidate list,
every sound LP oracle and every configuration, every timestep *written* by
the scheduler (passive stretches and accepted cycles alike) satisfies
`grid_import[t] = deficit[t] - discharge[t] ≥ 0` and
`curtailment[t] = excess[t] - charge[t] ≥ 0`.  (Unwritten gap timesteps,
which retain their zero initialization, refute the unrestricted original
claim.) -/
theorem C1_amended_theorem (lp : LPProblem → Option (List ℚ)) (sr : Series)
    (cfg : Config) (r : RunResult) (hlp : OracleSound lp)
    (hne : candidates sr cfg ≠ [])
    (hout : simularFull lp sr cfg = Except.ok r) :
    ∀ t, r.written.getD t false = true →
      r.out.grid_import.getD t 0 = deficitAt sr t - r.out.batt_discharge.getD t 0 ∧
      0 ≤ r.out.grid_import.getD t 0 ∧
      r.out.curtail.getD t 0 = excessAt sr t - r.out.batt_charge.getD t 0 ∧
      0 ≤ r.out.curtail.getD t 0 := by
  intro t hw
  unfold simularFull at hout
  rw [if_neg (by simpa [List.length_eq_zero] using hne)] at hout
  by_cases hz : cfg.battery_mwh = 0 ∨ cfg.eta_dis = 0
  · rw [if_pos hz] at hout
    cases hout
  · rw [if_neg hz] at hout
    cases hrun : simRun lp sr cfg with
    | none => rw [hrun] at hout; cases hout
    | some st' =>
      rw [hrun] at hout
      injection hout with hout
      obtain ⟨inv, hcur⟩ := runInit_inv sr cfg hne
      have hfinal : OutEq sr st'.buf :=
        simLoop_reaches lp sr cfg (fun st => OutEq sr st.buf)
          (fun st st1 a b c d => (outEq_step lp sr cfg hlp).1 st st1 a b c d)
          (fun st st1 a b c d => (outEq_step lp sr cfg hlp).2 st st1 a b c d)
          ((candidates sr cfg).length + 1) (runInitState sr cfg) st'
          (by rw [← simRun_eq]; exact hrun) inv (outEq_init sr cfg)
      rw [← hout] at hw ⊢
      exact hfinal t hw

/-- Every recorded cycle lies before `current`, and every timestep inside a
recorded cycle has its committed SOC inside `[soc_min, soc_max]` (the
defensive `np.clip` of the commit loop). -/
def SocInCycles (cfg : Config) (st : SimState) : Prop :=
  (∀ c ∈ st.cycles, c.stop ≤ st.current) ∧
  (∀ c ∈ st.cycles, ∀ t, c.start ≤ t → t < c.stop →
    cfg.soc_min ≤ st.buf.soc.getD (t + 1) 0 ∧
      st.buf.soc.getD (t + 1) 0 ≤ cfg.soc_max)

theorem stepBuf_soc_in_window (lp : LPProblem → Option (List ℚ)) (sr : Series)
    (cfg : Config) (st : SimState) (h : st.current < nTotal sr)
    (inv : SimInv sr cfg st) (hmm : cfg.soc_min ≤ cfg.soc_max)
    {t : ℕ} (h1 : st.current ≤ t) (h2 : t < (stepExt lp sr cfg st).t_end) :
    cfg.soc_min ≤ (stepBuf lp sr cfg st).soc.getD (t + 1) 0 ∧
      (stepBuf lp sr cfg st).soc.getD (t + 1) 0 ≤ cfg.soc_max := by
  obtain ⟨x1, x2, x3, x4, x5, x6, x7, x8⟩ := stepExt_spec lp sr cfg st h inv
  have hj : t - st.current < (stepExt lp sr cfg st).t_end - st.current := by omega
  have hfacts := applyGo_inside sr cfg st.current (stepExt lp sr cfg st).ch
    (stepExt lp sr cfg st).dis ((stepExt lp sr cfg st).t_end - st.current) 0
    (stepSoc0 st) st.buf inv.buflen (by omega) (t - st.current) hj
  have hte : st.current + 0 + (t - st.current) = t := by omega
  rw [hte] at hfacts
  rw [stepBuf, hfacts.2.2.2.2.2]
  show cfg.soc_min ≤ socStep cfg _ _ _ ∧ socStep cfg _ _ _ ≤ cfg.soc_max
  exact socStep_mem hmm _ _ _

theorem socInCycles_step (lp : LPProblem → Option (List ℚ)) (sr : Series)
    (cfg : Config) (hmm : cfg.soc_min ≤ cfg.soc_max) :
    (∀ st st1, st.current < nTotal sr → SimInv sr cfg st → SocInCycles cfg st →
      simStep lp sr cfg (candidates sr cfg) (nTotal sr) st = Sum.inl st1 →
      SocInCycles cfg st1) ∧
    (∀ st st1, st.current < nTotal sr → SimInv sr cfg st → SocInCycles cfg st →
      simStep lp sr cfg (candidates sr cfg) (nTotal sr) st = Sum.inr st1 →
      SocInCycles cfg st1) := by
  constructor
  · intro st st1 h inv hq hstep
    obtain ⟨jj, hcur, hci, hbuf, hcyc, hns, he1, he2, he3, he4, he5, he6⟩ :=
      simStep_inl_spec lp sr cfg st st1 h inv hstep
    obtain ⟨x1, x2, x3, x4, x5, x6, x7, x8⟩ := stepExt_spec lp sr cfg st h inv
    have hcycles : st1.cycles = st.cycles ++ [⟨st.current, (stepExt lp sr cfg st).t_end,
        stepSoc0 st, (stepExt lp sr cfg st).socEnd⟩] := hcyc
    constructor
    · intro c hc
      rw [hcycles] at hc
      rcases List.mem_append.mp hc with hcm | hcm
      · exact le_trans (hq.1 c hcm) (by omega)
      · have : c = ⟨st.current, (stepExt lp sr cfg st).t_end, stepSoc0 st,
            (stepExt lp sr cfg st).socEnd⟩ := List.mem_singleton.mp hcm
        rw [this]
        exact he4
    · intro c hc t ht1 ht2
      rw [hcycles] at hc
      rw [hbuf]
      rcases List.mem_append.mp hc with hcm | hcm
      · have hstop : c.stop ≤ st.current := hq.1 c hcm
        rw [stepBuf, applyGo_frame_soc sr cfg st.current _ _ _ _ _ _ (t + 1) (by omega)]
        exact hq.2 c hcm t ht1 ht2
      · have hceq : c = ⟨st.current, (stepExt lp sr cfg st).t_end, stepSoc0 st,
            (stepExt lp sr cfg st).socEnd⟩ := List.mem_singleton.mp hcm
        rw [hceq] at ht1 ht2
        exact stepBuf_soc_in_window lp sr cfg st h inv hmm ht1 ht2
  · intro st st1 h inv hq hstep
    obtain ⟨hcur, hci, hbuf, hcyc, hns⟩ := simStep_inr_spec lp sr cfg st st1 hstep
    obtain ⟨x1, x2, x3, x4, x5, x6, x7, x8⟩ := stepExt_spec lp sr cfg st h inv
    constructor
    · intro c hc
      rw [hcyc] at hc
      rw [hcur]
      rcases List.mem_append.mp hc with hcm | hcm
      · exact le_trans (hq.1 c hcm) (by omega)
      · have : c = ⟨st.current, (stepExt lp sr cfg st).t_end, stepSoc0 st,
            (stepExt lp sr cfg st).socEnd⟩ := List.mem_singleton.mp hcm
        rw [this]
        exact x6
    · intro c hc t ht1 ht2
      rw [hcyc] at hc
      rw [hbuf]
      rcases List.mem_append.mp hc with hcm | hcm
      · have hstop : c.stop ≤ st.current := hq.1 c hcm
        rw [passiveGo_frame_soc sr _ _ _ (t + 1) (by omega)]
        rw [stepBuf, applyGo_frame_soc sr cfg st.current _ _ _ _ _ _ (t + 1) (by omega)]
        exact hq.2 c hcm t ht1 ht2
      · have hceq : c = ⟨st.current, (stepExt lp sr cfg st).t_end, stepSoc0 st,
            (stepExt lp sr cfg st).socEnd⟩ := List.mem_singleton.mp hcm
        rw [hceq] at ht1 ht2
        have ha1 : st.current ≤ t := ht1
        have ha2 : t < (stepExt lp sr cfg st).t_end := ht2
        rw [passiveGo_frame_soc sr _ _ _ (t + 1) (by omega)]
        exact stepBuf_soc_in_window lp sr cfg st h inv hmm ha1 ha2

/-- C3: for every input series, oracle, and configuration with
`soc_min < soc_max` and a nonnegative headroom tolerance, every accepted
timestep (a timestep inside a committed cycle) has its reported SOC within
`[soc_min - eps, soc_max + eps]`. -/
theorem C3_theorem (lp : LPProblem → Option (List ℚ)) (sr : Series) (cfg : Config)
    (r : RunResult) (hmm : cfg.soc_min < cfg.soc_max)
    (heps : 0 ≤ cfg.soc_full_epsilon)
    (hout : simularFull lp sr cfg = Except.ok r) :
    ∀ c ∈ r.cycles, ∀ t, c.start ≤ t → t < c.stop →
      cfg.soc_min - cfg.soc_full_epsilon ≤ r.out.soc.getD t 0 ∧
      r.out.soc.getD t 0 ≤ cfg.soc_max + cfg.soc_full_epsilon := by
  intro c hc t ht1 ht2
  unfold simularFull at hout
  by_cases hzero : (candidates sr cfg).length = 0
  · rw [if_pos hzero] at hout
    injection hout with hout
    rw [← hout] at hc
    cases hc
  · rw [if_neg hzero] at hout
    by_cases hz : cfg.battery_mwh = 0 ∨ cfg.eta_dis = 0
    · rw [if_pos hz] at hout
      cases hout
    · rw [if_neg hz] at hout
      cases hrun : simRun lp sr cfg with
      | none => rw [hrun] at hout; cases hout
      | some st' =>
        rw [hrun] at hout
        injection hout with hout
        have hne : candidates sr cfg ≠ [] := by
          intro hnil; rw [hnil] at hzero; exact hzero rfl
        obtain ⟨inv, hcur⟩ := runInit_inv sr cfg hne
        have hfinal : SocInCycles cfg st' :=
          simLoop_reaches lp sr cfg (SocInCycles cfg)
            (fun st st1 a b c d => (socInCycles_step lp sr cfg (le_of_lt hmm)).1 st st1 a b c d)
            (fun st st1 a b c d => (socInCycles_step lp sr cfg (le_of_lt hmm)).2 st st1 a b c d)
            ((candidates sr cfg).length + 1) (runInitState sr cfg) st'
            (by rw [← simRun_eq]; exact hrun) inv
            ⟨fun c hcm => absurd hcm (by simp [runInitState]),
              fun c hcm => absurd hcm (by simp [runInitState])⟩
        rw [← hout] at hc ⊢
        have hsoc : (outputOf sr st').soc.getD t 0 = st'.buf.soc.getD (t + 1) 0 := by
          show (st'.buf.soc.drop 1).getD t 0 = _
          rw [getD_drop]
          have : 1 + t = t + 1 := by omega
          rw [this]
        rw [hsoc]
        have := hfinal.2 c hc t ht1 ht2
        constructor
        · linarith [this.1]
        · linarith [this.2]

/-- The amended relation between consecutive committed cycles: later cycles
start no earlier than the previous stop; when the start coincides with the
previous stop the starting SOC is the previous committed end SOC; when a gap
separates them the starting SOC is the never-written buffer value `0`. -/
def cycleRel (c1 c2 : Cycle) : Prop :=
  c1.stop ≤ c2.start ∧ (c2.start = c1.stop → c2.soc0 = c1.socEnd) ∧
    (c1.stop < c2.start → c2.soc0 = 0)

/-- The chaining invariant: the trace is `cycleRel`-chained, each cycle is a
nonempty window before `current`, and (while the loop is running) the SOC
entry at `current` is the last committed end SOC when `current` sits at the
last cycle's stop, else the untouched `0`. -/
def CycChain (sr : Series) (cfg : Config) (st : SimState) : Prop :=
  List.Chain' cycleRel st.cycles ∧
  (∀ c ∈ st.cycles, c.start < c.stop ∧ c.stop ≤ st.current) ∧
  (st.current < nTotal sr → ∀ c, st.cycles.getLast? = some c →
    st.buf.soc.getD st.current 0 = (if st.current = c.stop then c.socEnd else 0))

theorem chain_append_new (lp : LPProblem → Option (List ℚ)) (sr : Series)
    (cfg : Config) (st : SimState) (h : st.current < nTotal sr)
    (hq : CycChain sr cfg st) :
    List.Chain' cycleRel (stepCycles lp sr cfg st) := by
  rw [stepCycles, List.chain'_append]
  refine ⟨hq.1, List.chain'_singleton _, ?_⟩
  intro x hx y hy
  have hxl : st.cycles.getLast? = some x := hx
  have hyv : y = ⟨st.current, (stepExt lp sr cfg st).t_end, stepSoc0 st,
      (stepExt lp sr cfg st).socEnd⟩ := by
    simp only [List.head?_cons, Option.mem_def, Option.some.injEq] at hy
    exact hy.symm
  have hstop : x.stop ≤ st.current := (hq.2.1 x (List.mem_of_mem_getLast? hxl)).2
  have hsoc := hq.2.2 h x hxl
  rw [hyv]
  refine ⟨hstop, ?_, ?_⟩
  · intro heq
    have heq' : st.current = x.stop := heq
    show stepSoc0 st = x.socEnd
    rw [stepSoc0, hsoc, if_pos heq']
  · intro hlt
    have hlt' : x.stop < st.current := hlt
    show stepSoc0 st = 0
    rw [stepSoc0, hsoc, if_neg (by omega)]

theorem cycChain_step (lp : LPProblem → Option (List ℚ)) (sr : Series)
    (cfg : Config) :
    (∀ st st1, st.current < nTotal sr → SimInv sr cfg st → CycChain sr cfg st →
      simStep lp sr cfg (candidates sr cfg) (nTotal sr) st = Sum.inl st1 →
      CycChain sr cfg st1) ∧
    (∀ st st1, st.current < nTotal sr → SimInv sr cfg st → CycChain sr cfg st →
      simStep lp sr cfg (candidates sr cfg) (nTotal sr) st = Sum.inr st1 →
      CycChain sr cfg st1) := by
  constructor
  · intro st st1 h inv hq hstep
    obtain ⟨jj, hcur, hci, hbuf, hcyc, hns, he1, he2, he3, he4, he5, he6⟩ :=
      simStep_inl_spec lp sr cfg st st1 h inv hstep
    obtain ⟨x1, x2, x3, x4, x5, x6, x7, x8⟩ := stepExt_spec lp sr cfg st h inv
    refine ⟨hcyc ▸ chain_append_new lp sr cfg st h hq, ?_, ?_⟩
    · intro c hc
      rw [hcyc, stepCycles] at hc
      rcases List.mem_append.mp hc with hcm | hcm
      · obtain ⟨hc1, hc2⟩ := hq.2.1 c hcm
        exact ⟨hc1, by omega⟩
      · have hceq : c = ⟨st.current, (stepExt lp sr cfg st).t_end, stepSoc0 st,
            (stepExt lp sr cfg st).socEnd⟩ := List.mem_singleton.mp hcm
        rw [hceq]
        exact ⟨x5, he4⟩
    · intro hcur1 c hlast
      rw [hcyc, stepCycles, List.getLast?_concat] at hlast
      injection hlast with hlast
      rw [← hlast]
      show st1.buf.soc.getD st1.current 0
        = if st1.current = (stepExt lp sr cfg st).t_end
            then (stepExt lp sr cfg st).socEnd else 0
      by_cases hcase : st1.current = (stepExt lp sr cfg st).t_end
      · rw [if_pos hcase, hbuf, hcase, stepBuf]
        have hm1 : 1 ≤ (stepExt lp sr cfg st).t_end - st.current := by omega
        have hfacts := applyGo_inside sr cfg st.current (stepExt lp sr cfg st).ch
          (stepExt lp sr cfg st).dis ((stepExt lp sr cfg st).t_end - st.current) 0
          (stepSoc0 st) st.buf inv.buflen (by omega)
          ((stepExt lp sr cfg st).t_end - st.current - 1) (by omega)
        have hidx : st.current + 0 + ((stepExt lp sr cfg st).t_end - st.current - 1) + 1
            = (stepExt lp sr cfg st).t_end := by omega
        rw [hidx] at hfacts
        rw [hfacts.2.2.2.2.2]
        have hsteps : (stepExt lp sr cfg st).t_end - st.current - 1 + 1
            = (stepExt lp sr cfg st).t_end - st.current := by omega
        rw [hsteps, x8]
        rfl
      · rw [if_neg hcase, hbuf, stepBuf]
        have hgt : (stepExt lp sr cfg st).t_end < st1.current := by omega
        rw [applyGo_frame_soc sr cfg st.current _ _ _ _ _ _ st1.current (by omega)]
        exact inv.soc_zero st1.current (by omega)
  · intro st st1 h inv hq hstep
    obtain ⟨hcur, hci, hbuf, hcyc, hns⟩ := simStep_inr_spec lp sr cfg st st1 hstep
    obtain ⟨x1, x2, x3, x4, x5, x6, x7, x8⟩ := stepExt_spec lp sr cfg st h inv
    refine ⟨hcyc ▸ chain_append_new lp sr cfg st h hq, ?_, ?_⟩
    · intro c hc
      rw [hcyc, stepCycles] at hc
      rw [hcur]
      rcases List.mem_append.mp hc with hcm | hcm
      · obtain ⟨hc1, hc2⟩ := hq.2.1 c hcm
        exact ⟨hc1, by omega⟩
      · have hceq : c = ⟨st.current, (stepExt lp sr cfg st).t_end, stepSoc0 st,
            (stepExt lp sr cfg st).socEnd⟩ := List.mem_singleton.mp hcm
        rw [hceq]
        exact ⟨x5, x6⟩
    · intro hcur1
      rw [hcur] at hcur1
      omega

/-- C2 (amended): cycles are committed in strictly increasing time order
(each is a nonempty window ending no later than the next begins), and for
every pair of consecutive cycles the SOC passed to the Horizon Solver for the
later cycle is exactly the committed end SOC of the earlier one *when the
later cycle starts at the earlier one's end*; when the extension cap leaves a
gap between them, the later cycle instead reads the never-written buffer
value `0`.  (The unconditional chaining of the original claim is refuted
separately.) -/
theorem C2_amended_theorem (lp : LPProblem → Option (List ℚ)) (sr : Series)
    (cfg : Config) (r : RunResult)
    (hout : simularFull lp sr cfg = Except.ok r) :
    List.Chain' cycleRel r.cycles ∧ ∀ c ∈ r.cycles, c.start < c.stop := by
  unfold simularFull at hout
  by_cases hzero : (candidates sr cfg).length = 0
  · rw [if_pos hzero] at hout
    injection hout with hout
    rw [← hout]
    exact ⟨List.chain'_nil, fun c hc => absurd hc (by simp [passiveResult])⟩
  · rw [if_neg hzero] at hout
    by_cases hz : cfg.battery_mwh = 0 ∨ cfg.eta_dis = 0
    · rw [if_pos hz] at hout
      cases hout
    · rw [if_neg hz] at hout
      cases hrun : simRun lp sr cfg with
      | none => rw [hrun] at hout; cases hout
      | some st' =>
        rw [hrun] at hout
        injection hout with hout
        have hne : candidates sr cfg ≠ [] := by
          intro hnil; rw [hnil] at hzero; exact hzero rfl
        obtain ⟨inv, hcur⟩ := runInit_inv sr cfg hne
        have hinit : CycChain sr cfg (runInitState sr cfg) := by
          refine ⟨?_, ?_, ?_⟩
          · show List.Chain' cycleRel []
            exact List.chain'_nil
          · intro c hc
            exact absurd hc (by simp [runInitState])
          · intro _ c hlast
            exact absurd hlast (by simp [runInitState])
        have hfinal : CycChain sr cfg st' :=
          simLoop_reaches lp sr cfg (CycChain sr cfg)
            (fun st st1 a b c d => (cycChain_step lp sr cfg).1 st st1 a b c d)
            (fun st st1 a b c d => (cycChain_step lp sr cfg).2 st st1 a b c d)
            ((candidates sr cfg).length + 1) (runInitState sr cfg) st'
            (by rw [← simRun_eq]; exact hrun) inv hinit
        rw [← hout]
        exact ⟨hfinal.1, fun c hc => (hfinal.2.1 c hc).1⟩

deriving instance DecidableEq for Except

/-- Two-step witness series: a surplus step followed by a deficit step. -/
def wSeries : Series := { price := [1, 2], load := [0, 1], pv := [1, 0] }

/-- A well-formed configuration with the documented defaults. -/
def wCfg : Config :=
  { battery_mwh := 1, battery_mw := 1, eta_ch := 1, eta_dis := 1
    soc_min := 1/10, soc_max := 9/10, soc_ini := 1/2
    soc_full_epsilon := 1/10000, excess_threshold_mwh := 1/1000000
    end_soc_target := 1/10, end_soc_penalty := 2000
    charge_early_bonus := 1/100, charge_early_shape_linear := true }

/-- The instrumented result of `simular` on the witness input (all `linprog`
calls failing, exercising the fail-soft fallback). -/
def wRun : RunResult :=
  ((simularFull failOracle wSeries wCfg).toOption).getD (passiveResult wSeries wCfg)

/-- The output columns of the witness run. -/
def wOut : Output := wRun.out

/-- Scenario A of the spec: pure deficit, no surplus anywhere. -/
def aSeries : Series := { price := [0, 0, 0], load := [1, 1, 1], pv := [0, 0, 0] }

/-- Its output columns. -/
def aOut : Output :=
  ((simularE failOracle aSeries wCfg).toOption).getD (passiveResult aSeries wCfg).out

/-- One step of sub-threshold surplus: `0 < excess = 1e-7 ≤ threshold`. -/
def tSeries : Series := { price := [0], load := [0], pv := [1/10000000] }

/-- Its output columns. -/
def tOut : Output :=
  ((simularE failOracle tSeries wCfg).toOption).getD (passiveResult tSeries wCfg).out

/-- The witness configuration with a zero-capacity battery. -/
def zCfg : Config := { wCfg with battery_mwh := 0 }

/-- The forced-extension series: 14 surplus blocks (rising edges at every
even index), no deficit except at index 25, engineered so the battery starts
full and every candidate boundary fails the headroom test until the extension
cap is hit. -/
def gapSeries : Series :=
  { price := List.replicate 28 0
    load := (List.replicate 28 0).set 25 1
    pv := (List.range 28).map (fun t => if t % 2 = 0 then 2 else 0) }

/-- Configuration for the forced-extension run: battery full at start
(`soc_ini = soc_max`), `end_soc_target = soc_max` so the all-zero LP point is
optimal and feasible for every window. -/
def gapCfg : Config :=
  { battery_mwh := 1, battery_mw := 1, eta_ch := 1, eta_dis := 1
    soc_min := 0, soc_max := 1, soc_ini := 1
    soc_full_epsilon := 1/10000, excess_threshold_mwh := 1/1000000
    end_soc_target := 1, end_soc_penalty := 2000
    charge_early_bonus := 1/100, charge_early_shape_linear := true }

/-- The instrumented result of `simular` on the forced-extension input, with
the checked-zero oracle (which returns exactly what the real solver returns on
these windows: the zero decision). -/
def gapRun : RunResult :=
  ((simularFull zeroIfFeasOracle gapSeries gapCfg).toOption).getD
    (passiveResult gapSeries gapCfg)

set_option maxRecDepth 100000 in
unseal Rat.add Rat.mul Rat.sub Rat.inv in
/-- C1 counterexample: on the forced-extension input, timestep 25 lies in the
gap `[24, 26)` left between the cap-accepted cycle end 24 and the next cycle
start 26; it retains its zero-initialized output, so
`grid_import[25] = 0 ≠ 1 = deficit[25] - discharge[25]`, refuting the claim
for every timestep of the output. -/
theorem C1_counterexample :
    simularFull zeroIfFeasOracle gapSeries gapCfg = Except.ok gapRun ∧
    25 < nTotal gapSeries ∧
    gapRun.out.grid_import.getD 25 0 = 0 ∧
    deficitAt gapSeries 25 = 1 ∧
    gapRun.out.batt_discharge.getD 25 0 = 0 ∧
    gapRun.out.grid_import.getD 25 0
      ≠ deficitAt gapSeries 25 - gapRun.out.batt_discharge.getD 25 0 := by
  decide

set_option maxRecDepth 100000 in
unseal Rat.add Rat.mul Rat.sub Rat.inv in
/-- C2 counterexample: on the forced-extension input the two committed cycles
are `[2, 24)` (ending with SOC 1) and `[26, 28)` (starting with SOC 0): the
later cycle's starting SOC is neither the earlier cycle's ending SOC nor a
passive-path SOC — the gap timesteps 24 and 25 were never written at all. -/
theorem C2_counterexample :
    simularFull zeroIfFeasOracle gapSeries gapCfg = Except.ok gapRun ∧
    gapRun.cycles = [⟨2, 24, 1, 1⟩, ⟨26, 28, 0, 0⟩] ∧
    gapRun.written.getD 24 false = false ∧
    gapRun.written.getD 25 false = false ∧
    (1 : ℚ) ≠ 0 := by
  decide

set_option maxRecDepth 100000 in
unseal Rat.add Rat.mul Rat.sub Rat.inv in
/-- C10: on the forced-extension input an accepted cycle end (24, reached via
the extension cap with the battery still full at a candidate boundary) is
strictly smaller than the next cycle start (26) chosen by the candidate scan;
both gap timesteps keep their zero-initialized outputs (even though
`deficit[25] = 1 > 0`), the reported SOC on the gap is the never-written 0,
and the headroom test and the next cycle's starting SOC read that 0 from the
SOC buffer at candidate 26. -/
theorem C10_theorem :
    simularFull zeroIfFeasOracle gapSeries gapCfg = Except.ok gapRun ∧
    gapRun.cycles = [⟨2, 24, 1, 1⟩, ⟨26, 28, 0, 0⟩] ∧
    (gapRun.out.batt_charge.getD 24 0 = 0 ∧ gapRun.out.batt_charge.getD 25 0 = 0) ∧
    (gapRun.out.batt_discharge.getD 24 0 = 0 ∧ gapRun.out.batt_discharge.getD 25 0 = 0) ∧
    (gapRun.out.grid_import.getD 24 0 = 0 ∧ gapRun.out.grid_import.getD 25 0 = 0) ∧
    (gapRun.out.curtail.getD 24 0 = 0 ∧ gapRun.out.curtail.getD 25 0 = 0) ∧
    (gapRun.written.getD 24 false = false ∧ gapRun.written.getD 25 false = false) ∧
    deficitAt gapSeries 25 = 1 ∧
    (gapRun.out.soc.getD 24 0 = 0 ∧ gapRun.out.soc.getD 25 0 = 0) ∧
    hasExcess gapSeries gapCfg 26 = true := by
  decide

set_option maxRecDepth 100000 in
unseal Rat.add Rat.mul Rat.sub Rat.inv in
/-- C5 counterexample: with a zero-capacity battery and a nonempty candidate
list, the very first `solve_lp` call divides `eta_ch` by `cap = 0`, so
`simular` raises `ZeroDivisionError` instead of terminating with a result —
refuting the "including zero battery capacity" part of the claim. -/
theorem C5_counterexample :
    candidates wSeries zCfg ≠ [] ∧
    simularFull failOracle wSeries zCfg = Except.error SimError.zeroDivision := by
  decide

set_option maxRecDepth 100000 in
unseal Rat.add Rat.mul Rat.sub Rat.inv in
/-- C7 counterexample: a series whose only surplus is positive but below the
threshold has an empty candidate list, and the early return sets the
`curtail` column to the scalar `0.0`; so the curtailment output is `0`, not
the excess series value `1e-7`. -/
theorem C7_counterexample :
    candidates tSeries wCfg = [] ∧
    simularE failOracle tSeries wCfg = Except.ok tOut ∧
    excessAt tSeries 0 = 1/10000000 ∧
    tOut.curtail.getD 0 0 = 0 ∧
    tOut.curtail.getD 0 0 ≠ excessAt tSeries 0 := by
  decide

set_option maxRecDepth 100000 in
unseal Rat.add Rat.mul Rat.sub Rat.inv in
/-- C1 witness: the amended theorem applied to the two-step witness run at
the written deficit timestep `t = 1`. -/
theorem C1_witness :
    candidates wSeries wCfg ≠ [] ∧ wRun.written.getD 1 false = true ∧
      (wRun.out.grid_import.getD 1 0
          = deficitAt wSeries 1 - wRun.out.batt_discharge.getD 1 0 ∧
        0 ≤ wRun.out.grid_import.getD 1 0 ∧
        wRun.out.curtail.getD 1 0
          = excessAt wSeries 1 - wRun.out.batt_charge.getD 1 0 ∧
        0 ≤ wRun.out.curtail.getD 1 0) :=
  ⟨by decide, by decide,
    C1_amended_theorem failOracle wSeries wCfg wRun failOracle_sound (by decide)
      (by decide) 1 (by decide)⟩

set_option maxRecDepth 100000 in
unseal Rat.add Rat.mul Rat.sub Rat.inv in
/-- C2 witness: the amended theorem applied to the witness run. -/
theorem C2_witness :
    List.Chain' cycleRel wRun.cycles ∧ ∀ c ∈ wRun.cycles, c.start < c.stop :=
  C2_amended_theorem failOracle wSeries wCfg wRun (by decide)

set_option maxRecDepth 100000 in
unseal Rat.add Rat.mul Rat.sub Rat.inv in
/-- C3 witness: the theorem applied to the witness run's single committed
cycle `[0, 2)` at timestep `0`. -/
theorem C3_witness :
    wCfg.soc_min < wCfg.soc_max ∧ (0 : ℚ) ≤ wCfg.soc_full_epsilon ∧
      (⟨0, 2, 1/2, 1/2⟩ : Cycle) ∈ wRun.cycles ∧
      (wCfg.soc_min - wCfg.soc_full_epsilon ≤ wRun.out.soc.getD 0 0 ∧
        wRun.out.soc.getD 0 0 ≤ wCfg.soc_max + wCfg.soc_full_epsilon) :=
  ⟨by decide, by decide, by decide,
    C3_theorem failOracle wSeries wCfg wRun (by decide) (by decide) (by decide)
      ⟨0, 2, 1/2, 1/2⟩ (by decide) 0 (by decide) (by decide)⟩

set_option maxRecDepth 100000 in
unseal Rat.add Rat.mul Rat.sub Rat.inv in
/-- C4 witness: the theorem applied to the witness run at timestep `0`. -/
theorem C4_witness :
    0 ≤ wCfg.battery_mw ∧
      (0 ≤ wOut.batt_charge.getD 0 0 ∧
        wOut.batt_charge.getD 0 0 ≤ min (excessAt wSeries 0) wCfg.battery_mw ∧
        0 ≤ wOut.batt_discharge.getD 0 0 ∧
        wOut.batt_discharge.getD 0 0 ≤ min (deficitAt wSeries 0) wCfg.battery_mw) :=
  ⟨by decide,
    C4_theorem failOracle wSeries wCfg wOut failOracle_sound (by decide) (by decide)
      0 (by decide)⟩

set_option maxRecDepth 100000 in
unseal Rat.add Rat.mul Rat.sub Rat.inv in
/-- C5 witness: the amended theorem applied to the witness input (nonzero
capacity and discharge efficiency). -/
theorem C5_witness :
    wCfg.battery_mwh ≠ 0 ∧
      ∃ r, simularFull failOracle wSeries wCfg = Except.ok r ∧
        r.nsolves ≤ (candidates wSeries wCfg).length * (maxExtendSteps + 1) :=
  ⟨by decide, C5_amended_theorem failOracle wSeries wCfg (by decide) (by decide)⟩

set_option maxRecDepth 100000 in
unseal Rat.add Rat.mul Rat.sub Rat.inv in
/-- C6 witness: Scenario A (pure deficit) at timestep `1`. -/
theorem C6_witness :
    (∀ t, t < nTotal aSeries → excessAt aSeries t ≤ wCfg.excess_threshold_mwh) ∧
      (aOut.batt_charge.getD 1 0 = 0 ∧ aOut.batt_discharge.getD 1 0 = 0 ∧
        aOut.grid_import.getD 1 0 = deficitAt aSeries 1 ∧
        aOut.curtail.getD 1 0 = 0 ∧ aOut.soc.getD 1 0 = wCfg.soc_ini) :=
  ⟨by decide,
    C6_theorem failOracle aSeries wCfg aOut (by decide) (by decide) 1 (by decide)⟩

set_option maxRecDepth 100000 in
unseal Rat.add Rat.mul Rat.sub Rat.inv in
/-- C7 witness: the amended theorem applied to the sub-threshold-surplus
input at its single timestep. -/
theorem C7_witness :
    candidates tSeries wCfg = [] ∧
      (tOut.batt_charge.getD 0 0 = 0 ∧ tOut.batt_discharge.getD 0 0 = 0 ∧
        tOut.grid_import.getD 0 0 = deficitAt tSeries 0 ∧
        tOut.curtail.getD 0 0 = 0 ∧ tOut.soc.getD 0 0 = wCfg.soc_ini) :=
  ⟨by decide,
    C7_amended_theorem failOracle tSeries wCfg tOut (by decide) (by decide) 0
      (by decide)⟩

set_option maxRecDepth 100000 in
unseal Rat.add Rat.mul Rat.sub Rat.inv in
/-- C9 witness: the theorem applied to the window `[0, 2)` of the witness
input under the always-failing oracle. -/
theorem C9_witness :
    0 < 2 ∧
      (solve_lp failOracle wSeries wCfg 0 2 (1/2)
          = (List.replicate (2 - 0) 0, List.replicate (2 - 0) 0) ∧
        (solve_lp failOracle wSeries wCfg 0 2 (1/2)).1.length = 2 - 0 ∧
        (solve_lp failOracle wSeries wCfg 0 2 (1/2)).2.length = 2 - 0) :=
  ⟨by omega, C9_theorem failOracle wSeries wCfg 0 2 (1/2) (by omega) rfl⟩
